import Mathlib

/-!
Verification development for the bppt tree-viewer core.

This file gives a shallow embedding, in Lean, of the core of the bppt
repository and proves properties of it:

* the Newick species-tree reader and writer of
  `src/core/newick-parser.ts` (functions `cleanNewick`, `parseNewick`,
  `toNewick`),
* the gene-tree / Imap reader of `src/core/genetree-parser.ts`
  (functions `parseImap`, `parseGeneTree`, `parseNewickNode`,
  `parseChildren`, `parseLeafNode`, `parseBranchLength`),
* the line indexer of `src/core/file-indexer.ts` (class `FileIndexer`,
  methods `index`, `getTreeCount`, `getTree`),
* the tree geometry of `src/core/tree-types.ts` (`getDepth`,
  `getLeaves`) and `src/core/genetree-types.ts`,
* the population-interval model of
  `src/renderer/embedded-genetree.ts` (methods `drawSpeciesTubes`,
  `findPopulationForSpecies`, `drawGeneNodeConstrained`,
  `getGeneNodeAge`, and the population assembly in `render`).

Strings are modelled as `List Char`, file bytes as `List Nat`, and
JavaScript numbers as `ℚ` (exact rationals; floating rounding is out of
the model, and the round-trip theorem therefore restricts to values that
are exact at six decimal places, the precision used by `toFixed(6)`).
Drawing calls on the canvas context have no observable effect on the
data the claims are about and are dropped; every value the source code
computes and stores (offsets, parsed trees, population intervals,
violation records) is reproduced.
-/

namespace Bppt

/-- Strings, modelled as lists of characters. -/
abbrev Str := List Char

/-! ### Character classes and basic string helpers -/

/-- JavaScript whitespace (the ASCII part of `/\s/` and `String.trim`). -/
def isWsChar (c : Char) : Bool :=
  c == ' ' || c == '\t' || c == '\n' || c == '\r' || c == '\x0b' || c == '\x0c'

/-- Drop leading whitespace: the `skipWhitespace` cursor move of the
species parser, and the leading half of `String.trim`. -/
def skipWs (s : Str) : Str := s.dropWhile isWsChar

/-- JavaScript `String.trim` (ASCII whitespace). -/
def trimChars (s : Str) : Str :=
  ((s.dropWhile isWsChar).reverse.dropWhile isWsChar).reverse

/-- Decimal value of a digit character. -/
def digitVal (c : Char) : ℕ := c.toNat - 48

/-- Value of a run of decimal digit characters (most significant first). -/
def charsToNat (l : Str) : ℕ := l.foldl (fun a c => a * 10 + digitVal c) 0

/-- Decimal digit characters of a natural number (JS number printing for
naturals). -/
def natToChars (n : ℕ) : Str :=
  if n = 0 then ['0'] else (Nat.digits 10 n).reverse.map Nat.digitChar

/-- Exponent part of JavaScript `parseFloat`: an optional sign and a
digit run; an empty digit run makes the exponent marker ignored. -/
def expDigits (r : Str) : ℤ :=
  let esign : ℤ := if r.head? = some '-' then -1 else 1
  let r1 := if r.head? = some '-' ∨ r.head? = some '+' then r.drop 1 else r
  let ds := r1.takeWhile Char.isDigit
  if ds.isEmpty then 0 else esign * charsToNat ds

/-- JavaScript `parseFloat` on the finite decimals relevant here:
leading whitespace, optional sign, digit run, optional fraction,
optional exponent; `none` models the NaN result when no digit is read.
(Non-finite literals such as `Infinity` are outside the model.) -/
def jsParseFloat (s : Str) : Option ℚ :=
  let s0 := skipWs s
  let sign : ℚ := if s0.head? = some '-' then -1 else 1
  let s1 := if s0.head? = some '-' ∨ s0.head? = some '+' then s0.drop 1 else s0
  let intPart := s1.takeWhile Char.isDigit
  let s2 := s1.dropWhile Char.isDigit
  let fracPart := if s2.head? = some '.' then (s2.drop 1).takeWhile Char.isDigit else []
  let s3 := if s2.head? = some '.' then (s2.drop 1).dropWhile Char.isDigit else s2
  if intPart.isEmpty ∧ fracPart.isEmpty then none
  else
    let mant : ℚ := (charsToNat intPart : ℚ) + (charsToNat fracPart : ℚ) / (10 : ℚ) ^ fracPart.length
    let e : ℤ :=
      match s3 with
      | 'e' :: r => expDigits r
      | 'E' :: r => expDigits r
      | _ => 0
    some (sign * mant * (10 : ℚ) ^ e)

/-- Left-pad a digit string with zeros to width six. -/
def padSix (s : Str) : Str := List.replicate (6 - s.length) '0' ++ s

/-- The digits of `n / 10^6` written with exactly six decimal places. -/
def fixedSixOfNat (n : ℕ) : Str :=
  natToChars (n / 1000000) ++ '.' :: padSix (natToChars (n % 1000000))

/-- JavaScript `Number.toFixed(6)` on rationals.  On values that are
exact multiples of `10⁻⁶` (the only values the round-trip theorem uses)
this agrees with JS; elsewhere JS rounds on the binary double instead. -/
def toFixedSix (q : ℚ) : Str :=
  let n : ℤ := ⌊q * 1000000 + 1/2⌋
  if n < 0 then '-' :: fixedSixOfNat n.natAbs else fixedSixOfNat n.toNat

/-! ### Species trees: `src/core/tree-types.ts` -/

/-- `TreeNode` of `tree-types.ts`: name, branch length, optional theta,
ordered children. -/
inductive TreeNode where
  | node (name : Str) (branchLength : ℚ) (theta : Option ℚ) (children : List TreeNode)

def TreeNode.name : TreeNode → Str
  | .node n _ _ _ => n

def TreeNode.branchLength : TreeNode → ℚ
  | .node _ bl _ _ => bl

def TreeNode.theta : TreeNode → Option ℚ
  | .node _ _ th _ => th

def TreeNode.children : TreeNode → List TreeNode
  | .node _ _ _ cs => cs

/-- `isLeaf` of `tree-types.ts`. -/
def isLeaf (t : TreeNode) : Bool := t.children.isEmpty

/-- Fold of `Math.max` over a nonempty list of child values. -/
def maxListQ (x : ℚ) (xs : List ℚ) : ℚ := xs.foldl max x

mutual
/-- `getDepth` of `tree-types.ts`: branch length plus the maximum child
depth (the node's own branch length included, also at the root). -/
def getDepth : TreeNode → ℚ
  | .node _ bl _ [] => bl
  | .node _ bl _ (c :: cs) => bl + maxListQ (getDepth c) (kidsDepths cs)
def kidsDepths : List TreeNode → List ℚ
  | [] => []
  | c :: cs => getDepth c :: kidsDepths cs
end

mutual
/-- `getLeaves` of `tree-types.ts`: leaf names in input (left-to-right)
order. -/
def getLeaves : TreeNode → List Str
  | .node n _ _ [] => [n]
  | .node _ _ _ (c :: cs) => kidsLeaves (c :: cs)
def kidsLeaves : List TreeNode → List Str
  | [] => []
  | c :: cs => getLeaves c ++ kidsLeaves cs
end

mutual
/-- Number of nodes of the species tree; each node owns the tube drawn
between it and its parent position (the root's stem included, since the
root carries its own branch length), so this is also the number of
branch segments the renderer draws. -/
def branchCount : TreeNode → ℕ
  | .node _ _ _ cs => 1 + kidsBranchCount cs
def kidsBranchCount : List TreeNode → ℕ
  | [] => 0
  | c :: cs => branchCount c + kidsBranchCount cs
end

/-! ### Species-tree Newick reader: `src/core/newick-parser.ts` -/

/-- First rewrite of `cleanNewick`: strip a leading
`/^\s*\d+\s*→\s*/` sample-number prefix (identity when the pattern does
not match). -/
def stripArrow (s : Str) : Str :=
  let s1 := s.dropWhile isWsChar
  let ds := s1.takeWhile Char.isDigit
  if ds.isEmpty then s
  else
    match (s1.drop ds.length).dropWhile isWsChar with
    | c :: r => if c = '→' then r.dropWhile isWsChar else s
    | [] => s

/-- Second rewrite of `cleanNewick`: strip `/^\s*\d+\s+(?=\()/`, a
leading sample number followed by whitespace, when a parenthesis
follows. -/
def stripNumParen (s : Str) : Str :=
  let s1 := s.dropWhile isWsChar
  let ds := s1.takeWhile Char.isDigit
  if ds.isEmpty then s
  else
    let s2 := s1.drop ds.length
    let ws := s2.takeWhile isWsChar
    if ws.isEmpty then s
    else
      match s2.drop ws.length with
      | '(' :: r => '(' :: r
      | _ => s

/-- Third rewrite of `cleanNewick`: replace a trailing
`/;\s*\d+\s*$/` repeat-count suffix by `;`. -/
def stripTrailingCount (s : Str) : Str :=
  let r := s.reverse
  let r1 := r.dropWhile isWsChar
  let ds := r1.takeWhile Char.isDigit
  if ds.isEmpty then s
  else
    match (r1.drop ds.length).dropWhile isWsChar with
    | ';' :: rest => (';' :: rest).reverse
    | _ => s

/-- `cleanNewick` of `newick-parser.ts`: the three rewrites above, then
`trim`. -/
def cleanNewick (s : Str) : Str :=
  trimChars (stripTrailingCount (stripNumParen (stripArrow s)))

/-- Characters ending the name run of the species parser: `'#,:();'`
(the `'('` is in the stop set too). -/
def isNameStop (c : Char) : Bool :=
  c == '#' || c == ',' || c == ':' || c == '(' || c == ')' || c == ';'

/-- Characters ending the theta and branch-length runs: `',:();'`. -/
def isValStop (c : Char) : Bool :=
  c == ',' || c == ':' || c == '(' || c == ')' || c == ';'

/-- The tail of `parseNode` after the optional child list: name run,
optional `#theta`, optional `:length`, exactly as in the source (an
unparsable theta stays unset, an unparsable length stays 0). -/
def finishNode (cs : List TreeNode) (s : Str) : TreeNode × Str :=
  let s1 := skipWs s
  let nameRun := s1.takeWhile (fun c => !isNameStop c)
  let s2 := skipWs (s1.drop nameRun.length)
  let name := trimChars nameRun
  let thetaStep : Option ℚ × Str :=
    match s2 with
    | '#' :: r =>
        let run := r.takeWhile (fun c => !isValStop c)
        (jsParseFloat (trimChars run), r.drop run.length)
    | _ => (none, s2)
  let s3 := skipWs thetaStep.2
  let blStep : ℚ × Str :=
    match s3 with
    | ':' :: r =>
        let run := r.takeWhile (fun c => !isValStop c)
        ((jsParseFloat (trimChars run)).getD 0, r.drop run.length)
    | _ => (0, s3)
  (.node name blStep.1 thetaStep.1 cs, blStep.2)

mutual
/-- The cursor-based `parseNode` of `parseNewick`, with the cursor as
list consumption and an explicit fuel.  `none` is fuel exhaustion and
models non-termination of the source loop (which the source can reach,
e.g. on a stray `;` inside parentheses); the source function itself
never returns null. -/
def parseNodeF : Nat → Str → Option (TreeNode × Str)
  | 0, _ => none
  | fuel + 1, s =>
    match skipWs s with
    | '(' :: rest =>
        match childrenF fuel rest [] with
        | none => none
        | some (cs, s1) => some (finishNode cs s1)
    | s1 => some (finishNode [] s1)
/-- The child-collection loop of `parseNode`: parse a child, then look
at the next character: end of input breaks, `,` continues, `)` is
consumed and breaks, and any other character loops without advancing
(as in the source). -/
def childrenF : Nat → Str → List TreeNode → Option (List TreeNode × Str)
  | 0, _, _ => none
  | fuel + 1, s, acc =>
    match parseNodeF fuel s with
    | none => none
    | some (child, s1) =>
      let acc1 := acc ++ [child]
      match skipWs s1 with
      | [] => some (acc1, [])
      | ',' :: rest => childrenF fuel rest acc1
      | ')' :: rest => some (acc1, rest)
      | other => childrenF fuel other acc1
end

/-- The `/;$/` removal inside `parseNewick`. -/
def stripLastSemi (s : Str) : Str :=
  match s.reverse with
  | ';' :: r => r.reverse
  | _ => s

/-- `parseNewick` of `newick-parser.ts`.  `some none` is the null
result of the source; the outer `none` is fuel exhaustion (the source
diverges there). -/
def parseNewickF (fuel : Nat) (input : Str) : Option (Option TreeNode) :=
  let s := cleanNewick input
  if s.isEmpty || s = [';'] then some none
  else
    match parseNodeF fuel (trimChars (stripLastSemi s)) with
    | none => none
    | some (t, _) => some (some t)

mutual
/-- `toNewick` of `newick-parser.ts`: children in parentheses joined by
commas, then the name, then ` #theta` with six decimals when theta is
set, then `:length` with six decimals when the length is positive. -/
def toNewick : TreeNode → Str
  | .node name bl th cs =>
    (match cs with
     | [] => []
     | c :: rest => '(' :: (toNewick c ++ kidsNewick rest) ++ [')'])
    ++ name
    ++ (match th with
        | some t => ' ' :: '#' :: toFixedSix t
        | none => [])
    ++ (if 0 < bl then ':' :: toFixedSix bl else [])
def kidsNewick : List TreeNode → Str
  | [] => []
  | c :: rest => ',' :: toNewick c ++ kidsNewick rest
end

/-! ### Line indexer: `src/core/file-indexer.ts` -/

/-- The newline scan of `FileIndexer.index`: for every byte 10 at
position `pos`, record `pos + 1` when it is still inside the file.
The source reads the file in 1 MB chunks, but records `offset + i`,
the global position, so the chunking does not change the scan. -/
def scanOffsets (size : Nat) : List Nat → Nat → List Nat
  | [], _ => []
  | b :: rest, pos =>
    if b = 10 ∧ pos + 1 < size then
      (pos + 1) :: scanOffsets size rest (pos + 1)
    else
      scanOffsets size rest (pos + 1)

/-- `FileIndexer.index`: start from offset 0, record every next-line
offset, drop a trailing offset at or past end of file, and drop the
first line's offset when `skipFirstLine` is set. -/
def buildOffsets (bytes : List Nat) (skipFirst : Bool) : List Nat :=
  let offs := 0 :: scanOffsets bytes.length bytes 0
  let offs1 :=
    if h : offs ≠ [] then
      if bytes.length ≤ offs.getLast h then offs.dropLast else offs
    else offs
  if skipFirst ∧ ¬ offs1.isEmpty then offs1.drop 1 else offs1

/-- Whitespace bytes trimmed by `String.trim` (ASCII part). -/
def isWsByte (b : Nat) : Bool :=
  b == 9 || b == 10 || b == 11 || b == 12 || b == 13 || b == 32

/-- `String.trim` on the decoded byte range. -/
def trimBytes (l : List Nat) : List Nat :=
  ((l.dropWhile isWsByte).reverse.dropWhile isWsByte).reverse

/-- `FileIndexer.getTreeCount`. -/
def getTreeCount (bytes : List Nat) (skipFirst : Bool) : Nat :=
  (buildOffsets bytes skipFirst).length

/-- `FileIndexer.getTree`: empty string for an index outside
`[0, count)`, otherwise the trimmed bytes between this line's offset and
the next line's offset (or end of file). -/
def getTree (bytes : List Nat) (skipFirst : Bool) (i : ℤ) : List Nat :=
  let offs := buildOffsets bytes skipFirst
  if i < 0 ∨ (offs.length : ℤ) ≤ i then []
  else
    let j := i.toNat
    let s := offs.getD j 0
    let e := if j + 1 < offs.length then offs.getD (j + 1) 0 else bytes.length
    trimBytes ((bytes.drop s).take (e - s))

/-! ### Gene trees and Imap: `src/core/genetree-types.ts`,
`src/core/genetree-parser.ts` -/

/-- `GeneTreeNode` of `genetree-types.ts`. -/
inductive GeneTreeNode where
  | node (name : Str) (branchLength : ℚ) (children : List GeneTreeNode)
      (species : Option Str) (individual : Option Str)

def GeneTreeNode.name : GeneTreeNode → Str
  | .node n _ _ _ _ => n

def GeneTreeNode.branchLength : GeneTreeNode → ℚ
  | .node _ bl _ _ _ => bl

def GeneTreeNode.children : GeneTreeNode → List GeneTreeNode
  | .node _ _ cs _ _ => cs

def GeneTreeNode.species : GeneTreeNode → Option Str
  | .node _ _ _ sp _ => sp

def GeneTreeNode.individual : GeneTreeNode → Option Str
  | .node _ _ _ _ iv => iv

/-- `GeneTree` of `genetree-types.ts`: root plus the TH/TL annotation
values. -/
structure GeneTree where
  root : GeneTreeNode
  treeHeight : ℚ
  treeLength : ℚ

/-- The JS `Map` backing an Imap, as an insertion-ordered association
list; `mapSet` overwrites the value of an existing key in place. -/
abbrev ImapM := List (Str × Str)

def mapSet (m : ImapM) (k v : Str) : ImapM :=
  if m.any (fun p => p.1 = k) then
    m.map (fun p => if p.1 = k then (k, v) else p)
  else
    m ++ [(k, v)]

def mapGet (m : ImapM) (k : Str) : Option Str :=
  (m.find? (fun p => p.1 = k)).map (fun p => p.2)

/-- Split on `'\n'` (the line split of `parseImap`). -/
def splitLinesNl : Str → List Str
  | [] => [[]]
  | c :: r =>
    if c = '\n' then [] :: splitLinesNl r
    else
      match splitLinesNl r with
      | [] => [[c]]
      | l :: ls => (c :: l) :: ls

/-- The first two whitespace-delimited tokens of a line, when the line
has at least two (`line.split(/\s+/)` with `parts.length >= 2`; on the
trimmed lines `parseImap` feeds it, the JS split produces no empty
tokens). -/
def firstTwoTokens (s : Str) : Option (Str × Str) :=
  let s1 := skipWs s
  let t1 := s1.takeWhile (fun c => !isWsChar c)
  let s2 := skipWs (s1.drop t1.length)
  let t2 := s2.takeWhile (fun c => !isWsChar c)
  if t1.isEmpty ∨ t2.isEmpty then none else some (t1, t2)

/-- `parseImap` of `genetree-parser.ts`: per nonempty trimmed line, the
first token maps to the second; later lines overwrite earlier ones via
`Map.set`. -/
def parseImapM (content : Str) : ImapM :=
  (splitLinesNl (trimChars content)).foldl
    (fun m line =>
      let t := trimChars line
      if t.isEmpty then m
      else
        match firstTwoTokens t with
        | some (a, b) => mapSet m a b
        | none => m)
    []

/-- Character class `[0-9.]` of the TH/TL annotation regex. -/
def isDigitDot (c : Char) : Bool := c.isDigit || c == '.'

/-- Try to read `[TH=([0-9.]+),\s*TL=([0-9.]+)\]` at the head of the
string. -/
def matchTHTL (s : Str) : Option (ℚ × ℚ) :=
  match s with
  | '[' :: 'T' :: 'H' :: '=' :: r =>
    let d1 := r.takeWhile isDigitDot
    if d1.isEmpty then none
    else
      match r.drop d1.length with
      | ',' :: r2 =>
        match skipWs r2 with
        | 'T' :: 'L' :: '=' :: r3 =>
          let d2 := r3.takeWhile isDigitDot
          if d2.isEmpty then none
          else
            match r3.drop d2.length with
            | ']' :: _ => some ((jsParseFloat d1).getD 0, (jsParseFloat d2).getD 0)
            | _ => none
        | _ => none
      | _ => none
  | _ => none

/-- First (leftmost) TH/TL annotation in the string, as matched by
`treeStr.match(/\[TH=([0-9.]+),\s*TL=([0-9.]+)\]/)`. -/
def findTHTL : Str → Option (ℚ × ℚ)
  | [] => none
  | c :: r =>
    match matchTHTL (c :: r) with
    | some v => some v
    | none => findTHTL r

/-- Does `s` start with `[TH=` followed by at least one non-`]` and a
closing `]` (the head test of `/\s*\[TH=[^\]]+\].*$/`)? -/
def annotHere (s : Str) : Bool :=
  match s with
  | '[' :: 'T' :: 'H' :: '=' :: r =>
    let run := r.takeWhile (fun c => c ≠ ']')
    !run.isEmpty && !(r.drop run.length).isEmpty
  | _ => false

/-- Scan for the leftmost `[TH=...)` annotation; on a match the result
is the prefix before it with its trailing whitespace removed (the
`\s*` of the pattern), everything from the annotation on being dropped
(`.*$`). -/
def annotCutGo : Str → Str → Option Str
  | _, [] => none
  | acc, c :: r =>
    if annotHere (c :: r) then some ((acc.dropWhile isWsChar).reverse)
    else annotCutGo (c :: acc) r

/-- `treeStr.replace(/\s*\[TH=[^\]]+\].*$/, '')`. -/
def annotCut (s : Str) : Str :=
  match annotCutGo [] s with
  | some p => p
  | none => s

/-- `treeStr.replace(/;\s*\d*\s*$/, '')`: drop a trailing semicolon
with an optional count. -/
def stripSemiCount (s : Str) : Str :=
  let r := s.reverse
  let r3 := ((r.dropWhile isWsChar).dropWhile Char.isDigit).dropWhile isWsChar
  match r3 with
  | ';' :: rest => rest.reverse
  | _ => s

/-- Character class `[0-9.eE+-]` of `parseBranchLength`. -/
def isBlChar (c : Char) : Bool :=
  c.isDigit || c == '.' || c == 'e' || c == 'E' || c == '+' || c == '-'

/-- `parseBranchLength` of `genetree-parser.ts`: the first `:` followed
by a nonempty `[0-9.eE+-]` run, read with `parseFloat(...) || 0`;
0 when there is no match. -/
def parseBranchLenG : Str → ℚ
  | [] => 0
  | c :: r =>
    if c = ':' then
      let run := r.takeWhile isBlChar
      if run.isEmpty then parseBranchLenG r
      else (jsParseFloat run).getD 0
    else parseBranchLenG r

/-- Uppercase ASCII letter (the `[A-Z]` class). -/
def isUpperAlpha (c : Char) : Bool := 'A' ≤ c && c ≤ 'Z'

/-- The species/individual disambiguation test of `parseLeafNode`:
`part2.length <= 2 && part2 === part2.toUpperCase() &&
/^[A-Z]+$/.test(part2)`. -/
def tagIsSpeciesSecond (part2 : Str) : Bool :=
  part2.length ≤ 2 && part2.map Char.toUpper = part2 && (!part2.isEmpty && part2.all isUpperAlpha)

/-- `parseLeafNode` of `genetree-parser.ts`. -/
def parseLeafNodeG (imap : Option ImapM) (s : Str) : GeneTreeNode :=
  let colonIdx := s.findIdx (fun c => c == ':')
  let name :=
    if colonIdx < s.length then trimChars (s.take colonIdx) else trimChars s
  let bl : ℚ :=
    if colonIdx < s.length then (jsParseFloat (s.drop (colonIdx + 1))).getD 0 else 0
  let caretIdx := name.findIdx (fun c => c == '^')
  if caretIdx < name.length then
    let part1 := name.take caretIdx
    let part2 := name.drop (caretIdx + 1)
    if tagIsSpeciesSecond part2 then
      .node name bl [] (some part2) (some part1)
    else
      .node name bl [] (some part1) (some part2)
  else
    match imap with
    | some m => .node name bl [] (mapGet m name) (some name)
    | none => .node name bl [] none (some name)

/-- The matching-parenthesis scan at the top of `parseNewickNode`:
index of the `)` bringing the nesting depth back to zero. -/
def findCloseGo : Str → ℤ → ℕ → Option ℕ
  | [], _, _ => none
  | c :: r, depth, i =>
    if c = '(' then findCloseGo r (depth + 1) (i + 1)
    else if c = ')' then
      if depth - 1 = 0 then some i else findCloseGo r (depth - 1) (i + 1)
    else findCloseGo r depth (i + 1)

def findClose (s : Str) : Option ℕ := findCloseGo s 0 0

/-- The top-level comma split of `parseChildren`: segment boundaries are
commas at nesting depth zero (plus the end of the string). -/
def splitTopLevelGo : Str → ℤ → Str → List Str
  | [], _, cur => [cur.reverse]
  | c :: r, depth, cur =>
    if c = '(' then splitTopLevelGo r (depth + 1) (c :: cur)
    else if c = ')' then splitTopLevelGo r (depth - 1) (c :: cur)
    else if c = ',' ∧ depth = 0 then cur.reverse :: splitTopLevelGo r depth []
    else splitTopLevelGo r depth (c :: cur)

def splitTopLevel (s : Str) : List Str := splitTopLevelGo s 0 []

/-- The recursion of `parseNewickNode`/`parseChildren`, with an
explicit fuel.  Each recursive call is on a strict substring, so
`length + 1` fuel (what `parseNewickNodeG` supplies) always suffices;
the fuel is only a termination device. -/
def parseNodeG (imap : Option ImapM) : Nat → Str → Option GeneTreeNode
  | 0, _ => none
  | fuel + 1, s =>
    let s1 := trimChars s
    if s1.isEmpty then none
    else
      match s1.head? with
      | some '(' =>
        match findClose s1 with
        | none => none
        | some closeIdx =>
          let inner := (s1.drop 1).take (closeIdx - 1)
          let children := (splitTopLevel inner).filterMap
            (fun seg =>
              let t := trimChars seg
              if t.isEmpty then none else parseNodeG imap fuel t)
          let bl := parseBranchLenG (s1.drop (closeIdx + 1))
          some (.node [] bl children none none)
      | _ => some (parseLeafNodeG imap s1)

/-- `parseNewickNode` of `genetree-parser.ts` (total in the source; the
internal fuel is always sufficient, see `parseNodeG`). -/
def parseNewickNodeG (imap : Option ImapM) (s : Str) : Option GeneTreeNode :=
  parseNodeG imap (s.length + 1) s

/-- `parseGeneTree` of `genetree-parser.ts`: strip the sample-number
prefix, extract the TH/TL annotation, remove it together with a
trailing `;`/count, and parse the remaining structure. -/
def parseGeneTreeM (imap : Option ImapM) (input : Str) : Option GeneTree :=
  let t1 := stripArrow input
  let thtl := (findTHTL t1).getD (0, 0)
  let treeStr := trimChars (annotCut t1)
  let treeStr2 := trimChars (stripSemiCount treeStr)
  if treeStr2.isEmpty then none
  else
    match parseNewickNodeG imap treeStr2 with
    | none => none
    | some root => some ⟨root, thtl.1, thtl.2⟩

/-! ### Gene-tree geometry: `genetree-types.ts` and
`embedded-genetree.ts` -/

mutual
/-- `getGeneTreeDepth`: branch length plus maximal child depth. -/
def getGeneTreeDepth : GeneTreeNode → ℚ
  | .node _ bl [] _ _ => bl
  | .node _ bl (c :: cs) _ _ => bl + maxListQ (getGeneTreeDepth c) (geneKidsDepths cs)
def geneKidsDepths : List GeneTreeNode → List ℚ
  | [] => []
  | c :: cs => getGeneTreeDepth c :: geneKidsDepths cs
end

/-- `getGeneNodeAge` of `embedded-genetree.ts`: leaves have age 0; an
internal node's age is its first child's age plus that child's branch
length. -/
def getGeneNodeAge : GeneTreeNode → ℚ
  | .node _ _ [] _ _ => 0
  | .node _ _ (c :: _) _ _ => getGeneNodeAge c + c.branchLength

mutual
/-- All nodes of a gene tree (the node itself and, recursively, its
descendants). -/
def geneAllNodes : GeneTreeNode → List GeneTreeNode
  | .node n bl cs sp iv => .node n bl cs sp iv :: geneKidsAllNodes cs
def geneKidsAllNodes : List GeneTreeNode → List GeneTreeNode
  | [] => []
  | c :: cs => geneAllNodes c ++ geneKidsAllNodes cs
end

/-- `getSpeciesFromName` of `embedded-genetree.ts`: the part before a
caret, else the Imap entry, else the name itself. -/
def getSpeciesFromName (imapR : ImapM) (name : Str) : Str :=
  let caretIdx := name.findIdx (fun c => c == '^')
  if caretIdx < name.length then name.take caretIdx
  else (mapGet imapR name).getD name

/-! ### Population intervals: `embedded-genetree.ts` -/

/-- The per-species horizontal layout entry (`SpeciesPosition`). -/
structure SpeciesPosition where
  x : ℚ
  width : ℚ

/-- The color/identity key of a population: a named node, an anonymous
ancestral node (keyed in the source by the interpolated string
`anc_${leftX}_${rightX}`, here by the two numbers themselves), or the
synthetic root population (keyed `'root'`).  The key only feeds the
color table, which no claim is about. -/
inductive PopKey where
  | named (s : Str)
  | anc (leftX rightX : ℚ)
  | rootPop

/-- `PopulationInfo` of `embedded-genetree.ts`. -/
structure PopulationInfo where
  key : PopKey
  leftX : ℚ
  rightX : ℚ
  startTime : ℚ
  endTime : ℚ
  species : Finset Str

/-- The result record of `drawSpeciesTubes`. -/
structure TubeResult where
  leftX : ℚ
  rightX : ℚ
  nodeY : ℚ
  species : Finset Str

instance : Inhabited TubeResult := ⟨⟨0, 0, 0, ∅⟩⟩

/-- Minimum over the child results (`Math.min(...)` on a nonempty
list). -/
def minListQ (x : ℚ) (xs : List ℚ) : ℚ := xs.foldl min x

mutual
/-- `drawSpeciesTubes` of `embedded-genetree.ts`, restricted to the
data it stores: the populations pushed (in push order) and the returned
bounds record.  A leaf with no layout entry pushes nothing and returns
the zero record, exactly as the early return in the source; a leaf
pushes `[0, nodeAge]` with membership `{name}`; an internal node first
recurses into its children with age `nodeAge - branchLength`, then
pushes `[nodeAge - branchLength, nodeAge]` with the union of the child
memberships.  Canvas drawing has no effect on this data and is
dropped. -/
def drawSpeciesTubes (positions : Str → Option SpeciesPosition) (yScale tipY : ℚ) :
    TreeNode → ℚ → ℚ → List PopulationInfo × TubeResult
  | .node name _ _ [], _, nodeAge =>
    match positions name with
    | none => ([], ⟨0, 0, tipY, ∅⟩)
    | some pos =>
      let lx := pos.x - pos.width / 2
      let rx := pos.x + pos.width / 2
      ([⟨.named name, lx, rx, 0, nodeAge, {name}⟩], ⟨lx, rx, tipY, {name}⟩)
  | .node name bl _th (c :: cs), parentY, nodeAge =>
    let nodeY := parentY - bl * yScale
    let childAge := nodeAge - bl
    let kids := drawTubesKids positions yScale tipY (c :: cs) nodeY childAge
    let firstR := kids.2.headI
    let leftX := minListQ firstR.leftX (kids.2.map TubeResult.leftX).tail
    let rightX := maxListQ firstR.rightX (kids.2.map TubeResult.rightX).tail
    let species := kids.2.foldl (fun acc r => acc ∪ r.species) ∅
    let key := if name.isEmpty then PopKey.anc leftX rightX else PopKey.named name
    (kids.1 ++ [⟨key, leftX, rightX, childAge, nodeAge, species⟩],
     ⟨leftX, rightX, nodeY, species⟩)
def drawTubesKids (positions : Str → Option SpeciesPosition) (yScale tipY : ℚ) :
    List TreeNode → ℚ → ℚ → List PopulationInfo × List TubeResult
  | [], _, _ => ([], [])
  | c :: cs, nodeY, childAge =>
    let r := drawSpeciesTubes positions yScale tipY c nodeY childAge
    let rest := drawTubesKids positions yScale tipY cs nodeY childAge
    (r.1 ++ rest.1, r.2 :: rest.2)
end

/-- The population list `render` builds: `drawSpeciesTubes` from the
species root (called with `parentY = speciesRootY` and
`nodeAge = speciesDepth`), plus, when `speciesRootY < rootY`, the
synthetic root population `[speciesDepth, maxDepth]` over all leaves. -/
def renderPopulations (t : TreeNode) (positions : Str → Option SpeciesPosition)
    (maxDepth rootY tipY yScale : ℚ) : List PopulationInfo :=
  let speciesDepth := getDepth t
  let speciesRootY := rootY - (maxDepth - speciesDepth) * yScale
  let r := drawSpeciesTubes positions yScale tipY t speciesRootY speciesDepth
  r.1 ++
    (if speciesRootY < rootY then
      [⟨.rootPop, r.2.leftX, r.2.rightX, speciesDepth, maxDepth, (getLeaves t).toFinset⟩]
    else [])

/-- Does `time ∈ [startTime, endTime]` and does the population contain
every required species (the two filters of
`findPopulationForSpecies`)? -/
def popQualifies (speciesSet : Finset Str) (time : ℚ) (pop : PopulationInfo) : Prop :=
  pop.startTime ≤ time ∧ time ≤ pop.endTime ∧ speciesSet ⊆ pop.species

instance (s : Finset Str) (t : ℚ) (p : PopulationInfo) : Decidable (popQualifies s t p) := by
  unfold popQualifies; infer_instance

/-- The fold of `findPopulationForSpecies`: keep the first qualifying
population of each strictly smaller membership size. -/
def findPopGo (speciesSet : Finset Str) (time : ℚ) :
    List PopulationInfo → Option PopulationInfo → Option PopulationInfo
  | [], best => best
  | pop :: rest, best =>
    let best1 :=
      if popQualifies speciesSet time pop ∧
          (∀ b ∈ best, pop.species.card < b.species.card) then
        some pop
      else best
    findPopGo speciesSet time rest best1

/-- `findPopulationForSpecies` of `embedded-genetree.ts`: among the
populations whose time window contains `time` and whose membership
contains `speciesSet`, the first one of minimal membership size; `none`
when no population qualifies. -/
def findPopulationForSpecies (pops : List PopulationInfo) (speciesSet : Finset Str)
    (time : ℚ) : Option PopulationInfo :=
  findPopGo speciesSet time pops none

mutual
/-- The observable data of `drawGeneNodeConstrained` of
`embedded-genetree.ts`: the containment-violation records produced (in
production order) and the species set returned for the node.  A leaf
contributes its resolved species (`node.species` or
`getSpeciesFromName`); an internal node first processes its children,
then queries `findPopulationForSpecies` with the union of the child
species sets at its coalescence age (`getGeneNodeAge`), recording a
violation when no population qualifies.  Coordinates and drawing do not
feed back into this data and are dropped. -/
def collectViolations (imapR : ImapM) (pops : List PopulationInfo) :
    GeneTreeNode → List (Finset Str × ℚ) × Finset Str
  | .node name _ [] sp _ =>
    ([], {sp.getD (getSpeciesFromName imapR name)})
  | .node n bl (c :: cs) sp iv =>
    let kids := geneKidsViolations imapR pops (c :: cs)
    let allSpecies := kids.2.foldl (fun acc s => acc ∪ s) ∅
    let coalescentTime := getGeneNodeAge (.node n bl (c :: cs) sp iv)
    let here :=
      match findPopulationForSpecies pops allSpecies coalescentTime with
      | none => [(allSpecies, coalescentTime)]
      | some _ => []
    (kids.1 ++ here, allSpecies)
def geneKidsViolations (imapR : ImapM) (pops : List PopulationInfo) :
    List GeneTreeNode → List (Finset Str × ℚ) × List (Finset Str)
  | [] => ([], [])
  | c :: cs =>
    let r := collectViolations imapR pops c
    let rest := geneKidsViolations imapR pops cs
    (r.1 ++ rest.1, r.2 :: rest.2)
end

/-! ### Statement-layer predicates -/

/-- The sibling age-consistency assumption of the specification: at
every node of the gene tree, all children agree on the age of the node
(child age plus child branch length). -/
def SiblingConsistent (g : GeneTreeNode) : Prop :=
  ∀ p ∈ geneAllNodes g, ∀ c ∈ p.children, ∀ d ∈ p.children,
    getGeneNodeAge c + c.branchLength = getGeneNodeAge d + d.branchLength

mutual
/-- All branch lengths of a species tree are nonnegative (the data
model's `branchLength (≥0 real)` invariant). -/
def NonnegBL : TreeNode → Prop
  | .node _ bl _ cs => 0 ≤ bl ∧ NonnegKids cs
def NonnegKids : List TreeNode → Prop
  | [] => True
  | c :: cs => NonnegBL c ∧ NonnegKids cs
end

/-- A rational that is exact at six decimal places, the precision of
`toFixed(6)`. -/
def ExactSix (q : ℚ) : Prop := q.den ∣ 1000000

/-- A taxon name as the parser itself produces for valid input: free of
the grammar delimiters `#,:();`, free of the sample-arrow character,
and already trimmed. -/
def ValidName (n : Str) : Prop :=
  (∀ c ∈ n, isNameStop c = false ∧ c ≠ '→') ∧ trimChars n = n

mutual
/-- A parsed species tree arising from valid species-tree text: valid
names, nonempty leaf names, and nonnegative branch lengths and thetas
that are exact at the six decimal places `toNewick` prints. -/
def ValidTree : TreeNode → Prop
  | .node name bl th cs =>
    ValidName name ∧ (cs = [] → name ≠ []) ∧ 0 ≤ bl ∧ ExactSix bl ∧
      (∀ t ∈ th, 0 ≤ t ∧ ExactSix t) ∧ ValidKids cs
def ValidKids : List TreeNode → Prop
  | [] => True
  | c :: cs => ValidTree c ∧ ValidKids cs
end

mutual
/-- Fuel sufficient for `parseNodeF` to consume the printed form of a
tree: one unit per `parseNode` call plus one per child-loop step. -/
def fuelNode : TreeNode → ℕ
  | .node _ _ _ cs => 1 + fuelKids cs
def fuelKids : List TreeNode → ℕ
  | [] => 0
  | c :: cs => 1 + max (fuelNode c) (fuelKids cs)
end

/-- The continuation shapes the printer can leave after a printed
node: end of input, a following sibling, or the closing parenthesis. -/
def RestOK (rest : Str) : Prop :=
  rest = [] ∨ rest.head? = some ',' ∨ rest.head? = some ')'

/-- A file made of newline-terminated lines, with no trailing partial
line. -/
def flattenLines (lines : List (List Nat)) : List Nat :=
  lines.foldr (fun l acc => l ++ 10 :: acc) []

/-- The byte offset at which each line starts inside `flattenLines`. -/
def lineStarts : List (List Nat) → Nat → List Nat
  | [], _ => []
  | l :: ls, pos => pos :: lineStarts ls (pos + l.length + 1)

/-- A line holds no newline byte. -/
def NlFree (l : List Nat) : Prop := ∀ b ∈ l, b ≠ 10

/-- The reference reading of the Imap file: the species of the last
line whose first token is the individual, among the nonempty trimmed
lines with at least two whitespace-delimited tokens — built from the
first two tokens only. -/
def imapLastRule (content : Str) (ind : Str) : Option Str :=
  ((((splitLinesNl (trimChars content)).filterMap
      (fun line =>
        let t := trimChars line
        if t.isEmpty then none else firstTwoTokens t)).reverse.find?
      (fun p => p.1 = ind)).map (fun p => p.2))

/-! ## General lemmas -/

theorem takeWhile_append_stop {α} {p : α → Bool} {A C : List α} {b : α}
    (hA : ∀ c ∈ A, p c = true) (hb : p b = false) :
    (A ++ b :: C).takeWhile p = A := by
  induction A with
  | nil => simp [List.takeWhile, hb]
  | cons a A ih =>
    have ha := hA a (by simp)
    simp only [List.cons_append, List.takeWhile_cons, ha, if_true]
    rw [ih (fun c hc => hA c (by simp [hc]))]

theorem dropWhile_append_stop {α} {p : α → Bool} {A C : List α} {b : α}
    (hA : ∀ c ∈ A, p c = true) (hb : p b = false) :
    (A ++ b :: C).dropWhile p = b :: C := by
  induction A with
  | nil => simp [List.dropWhile, hb]
  | cons a A ih =>
    have ha := hA a (by simp)
    simp only [List.cons_append, List.dropWhile_cons, ha, if_true]
    exact ih (fun c hc => hA c (by simp [hc]))

theorem takeWhile_eq_self_of_all {α} {p : α → Bool} {A : List α}
    (hA : ∀ c ∈ A, p c = true) : A.takeWhile p = A := by
  induction A with
  | nil => rfl
  | cons a A ih =>
    have := hA a (by simp)
    simp [List.takeWhile_cons, this, ih (fun c hc => hA c (by simp [hc]))]

theorem dropWhile_eq_nil_of_all {α} {p : α → Bool} {A : List α}
    (hA : ∀ c ∈ A, p c = true) : A.dropWhile p = [] := by
  induction A with
  | nil => rfl
  | cons a A ih =>
    have := hA a (by simp)
    simp [List.dropWhile_cons, this, ih (fun c hc => hA c (by simp [hc]))]

theorem dropWhile_cons_of_neg {α} {p : α → Bool} {A : List α} {a : α}
    (h : p a = false) : (a :: A).dropWhile p = a :: A := by
  simp [List.dropWhile_cons, h]

/-- Structural induction principle for the nested inductive
`TreeNode`. -/
theorem treeNodeRec {motive : TreeNode → Prop}
    (h : ∀ n bl th cs, (∀ c ∈ cs, motive c) → motive (.node n bl th cs)) :
    ∀ t, motive t
  | .node n bl th cs =>
    h n bl th cs (fun c hc => treeNodeRec h c)
termination_by t => sizeOf t
decreasing_by
  have := List.sizeOf_lt_of_mem hc
  simp only [TreeNode.node.sizeOf_spec]
  omega

/-- Structural induction principle for the nested inductive
`GeneTreeNode`. -/
theorem geneNodeRec {motive : GeneTreeNode → Prop}
    (h : ∀ n bl cs sp iv, (∀ c ∈ cs, motive c) → motive (.node n bl cs sp iv)) :
    ∀ g, motive g
  | .node n bl cs sp iv =>
    h n bl cs sp iv (fun c hc => geneNodeRec h c)
termination_by g => sizeOf g
decreasing_by
  have := List.sizeOf_lt_of_mem hc
  simp only [GeneTreeNode.node.sizeOf_spec]
  omega

theorem maxListQ_const (x : ℚ) (xs : List ℚ) (h : ∀ y ∈ xs, y = x) :
    maxListQ x xs = x := by
  induction xs with
  | nil => rfl
  | cons a xs ih =>
    have := h a (by simp)
    subst this
    unfold maxListQ at *
    simp only [List.foldl_cons, max_self]
    exact ih (fun y hy => h y (by simp [hy]))

theorem mem_geneKidsAllNodes {c : GeneTreeNode} {cs : List GeneTreeNode} (hc : c ∈ cs) :
    ∀ p ∈ geneAllNodes c, p ∈ geneKidsAllNodes cs := by
  induction cs with
  | nil => cases hc
  | cons a cs ih =>
    intro p hp
    rcases List.mem_cons.mp hc with rfl | hmem
    · simp [geneKidsAllNodes, hp]
    · simp [geneKidsAllNodes]
      exact Or.inr (ih hmem p hp)

theorem self_mem_geneAllNodes (g : GeneTreeNode) : g ∈ geneAllNodes g := by
  cases g with
  | node n bl cs sp iv => simp [geneAllNodes]

theorem siblingConsistent_child {n bl cs sp iv} {c : GeneTreeNode}
    (h : SiblingConsistent (.node n bl cs sp iv)) (hc : c ∈ cs) :
    SiblingConsistent c := by
  intro p hp x hx y hy
  apply h p _ x hx y hy
  have : p ∈ geneKidsAllNodes cs := mem_geneKidsAllNodes hc p hp
  simp [geneAllNodes]
  exact Or.inr this

theorem geneKidsDepths_eq_map (cs : List GeneTreeNode) :
    geneKidsDepths cs = cs.map getGeneTreeDepth := by
  induction cs with
  | nil => rfl
  | cons c cs ih => simp [geneKidsDepths, ih]

/-- Under sibling age consistency, the total depth of a gene node is
its age plus its own branch length. -/
theorem depth_eq_age_add_bl (g : GeneTreeNode) (h : SiblingConsistent g) :
    getGeneTreeDepth g = getGeneNodeAge g + g.branchLength := by
  induction g using geneNodeRec with
  | h n bl cs sp iv ih =>
    cases cs with
    | nil => simp [getGeneTreeDepth, getGeneNodeAge, GeneTreeNode.branchLength]
    | cons c cs =>
      have hcons := h (.node n bl (c :: cs) sp iv) (self_mem_geneAllNodes _)
      have hall : ∀ d ∈ c :: cs, getGeneTreeDepth d = getGeneNodeAge c + c.branchLength := by
        intro d hd
        have hd2 : getGeneNodeAge d + d.branchLength = getGeneNodeAge c + c.branchLength :=
          hcons d (by simpa [GeneTreeNode.children] using hd) c (by simp [GeneTreeNode.children])
        rw [ih d hd (siblingConsistent_child h hd)]
        exact hd2
      have hmax : maxListQ (getGeneTreeDepth c) (geneKidsDepths cs)
          = getGeneNodeAge c + c.branchLength := by
        rw [hall c (by simp)]
        apply maxListQ_const
        intro y hy
        rw [geneKidsDepths_eq_map] at hy
        obtain ⟨d, hd, rfl⟩ := List.mem_map.mp hy
        exact hall d (by simp [hd])
      simp only [getGeneTreeDepth, hmax, getGeneNodeAge, GeneTreeNode.branchLength]
      ring

/-- Under sibling age consistency, every child's age is the parent's
age minus the child's branch length. -/
theorem age_child_eq (g : GeneTreeNode) (h : SiblingConsistent g) :
    ∀ p ∈ geneAllNodes g, ∀ c ∈ p.children,
      getGeneNodeAge c = getGeneNodeAge p - c.branchLength := by
  intro p hp c hc
  cases p with
  | node n bl cs sp iv =>
    cases cs with
    | nil => simp [GeneTreeNode.children] at hc
    | cons c0 cs =>
      have h2 := h _ hp c hc c0 (by simp [GeneTreeNode.children])
      have : getGeneNodeAge (GeneTreeNode.node n bl (c0 :: cs) sp iv)
          = getGeneNodeAge c0 + c0.branchLength := by
        simp [getGeneNodeAge]
      rw [this, ← h2]
      ring

/-- A digit character is not whitespace. -/
theorem isDigit_not_ws {c : Char} (h : c.isDigit = true) : isWsChar c = false := by
  by_contra hw
  have hw2 : isWsChar c = true := by
    cases hx : isWsChar c with
    | false => exact absurd hx hw
    | true => rfl
  simp only [isWsChar, Bool.or_eq_true, beq_iff_eq] at hw2
  rcases hw2 with ((((rfl | rfl) | rfl) | rfl) | rfl) | rfl <;> simp [Char.isDigit] at h


/-- A digit character is not a sign character. -/
theorem isDigit_ne_sign {c : Char} (h : c.isDigit = true) : c ≠ '-' ∧ c ≠ '+' := by
  constructor <;> (rintro rfl; simp [Char.isDigit] at h)

theorem skipWs_cons_of_neg {c : Char} {A : Str} (h : isWsChar c = false) :
    skipWs (c :: A) = c :: A := dropWhile_cons_of_neg h

theorem charsToNat_nil : charsToNat [] = 0 := rfl

/-- `parseFloat` on a bare digit run reads its decimal value. -/
theorem jsParseFloat_int (d1 : Str) (h1 : ∀ c ∈ d1, c.isDigit = true) (hne : d1 ≠ []) :
    jsParseFloat d1 = some (charsToNat d1 : ℚ) := by
  obtain ⟨c, cs, rfl⟩ : ∃ c cs, d1 = c :: cs := by
    cases d1 with
    | nil => exact absurd rfl hne
    | cons c cs => exact ⟨c, cs, rfl⟩
  have hc := h1 c (by simp)
  have hsgn := isDigit_ne_sign hc
  have hm : (c = '-') = False := by simp [hsgn.1]
  have hp : (c = '+') = False := by simp [hsgn.2]
  unfold jsParseFloat
  rw [skipWs_cons_of_neg (isDigit_not_ws hc)]
  simp [hm, hp, takeWhile_eq_self_of_all h1, dropWhile_eq_nil_of_all h1, charsToNat_nil]

/-- `parseFloat` on `digits.digits` reads the decimal value. -/
theorem jsParseFloat_decimal (d1 d2 : Str) (h1 : ∀ c ∈ d1, c.isDigit = true)
    (h2 : ∀ c ∈ d2, c.isDigit = true) (hne : d1 ≠ []) :
    jsParseFloat (d1 ++ '.' :: d2)
      = some ((charsToNat d1 : ℚ) + (charsToNat d2 : ℚ) / 10 ^ d2.length) := by
  obtain ⟨c, cs, rfl⟩ : ∃ c cs, d1 = c :: cs := by
    cases d1 with
    | nil => exact absurd rfl hne
    | cons c cs => exact ⟨c, cs, rfl⟩
  have hc := h1 c (by simp)
  have hsgn := isDigit_ne_sign hc
  have hm : (c = '-') = False := by simp [hsgn.1]
  have hp : (c = '+') = False := by simp [hsgn.2]
  have h1a : ((c :: cs) ++ '.' :: d2).takeWhile Char.isDigit = c :: cs :=
    takeWhile_append_stop h1 (by simp [Char.isDigit])
  have h2a : ((c :: cs) ++ '.' :: d2).dropWhile Char.isDigit = '.' :: d2 :=
    dropWhile_append_stop h1 (by simp [Char.isDigit])
  unfold jsParseFloat
  rw [List.cons_append, skipWs_cons_of_neg (isDigit_not_ws hc)]
  simp only [List.cons_append] at h1a h2a
  simp [hm, hp, h1a, h2a, takeWhile_eq_self_of_all h2, dropWhile_eq_nil_of_all h2]

/-- The concrete decimal values used by the worked examples. -/
theorem jpfHalf : jsParseFloat ( "0.5".toList) = some (1/2 : ℚ) := by
  rw [show ( "0.5".toList) = ['0'] ++ '.' :: ['5'] from rfl]
  rw [jsParseFloat_decimal ['0'] ['5'] (by decide) (by decide) (by decide)]
  rw [show charsToNat ['0'] = 0 from rfl, show charsToNat ['5'] = 5 from rfl]
  norm_num

theorem jpfOne : jsParseFloat ( "1".toList) = some (1 : ℚ) := by
  rw [jsParseFloat_int ( "1".toList) (by decide) (by decide)]
  rw [show charsToNat ( "1".toList) = 1 from rfl]
  norm_num

theorem jpfZero : jsParseFloat ( "0".toList) = some (0 : ℚ) := by
  rw [jsParseFloat_int ( "0".toList) (by decide) (by decide)]
  rw [show charsToNat ( "0".toList) = 0 from rfl]
  norm_num

theorem jpfOneDot : jsParseFloat ( "1.0".toList) = some (1 : ℚ) := by
  rw [show ( "1.0".toList) = ['1'] ++ '.' :: ['0'] from rfl]
  rw [jsParseFloat_decimal ['1'] ['0'] (by decide) (by decide) (by decide)]
  rw [show charsToNat ['1'] = 1 from rfl, show charsToNat ['0'] = 0 from rfl]
  norm_num


/-! findPopGo characterization -/

theorem findPopGo_none_iff (S : Finset Str) (t : ℚ) :
    ∀ pops best, findPopGo S t pops best = none ↔
      (best = none ∧ ∀ p ∈ pops, ¬ popQualifies S t p) := by
  intro pops
  induction pops with
  | nil => intro best; simp [findPopGo]
  | cons pop rest ih =>
    intro best
    rw [findPopGo]
    by_cases hq : popQualifies S t pop ∧ (∀ b ∈ best, pop.species.card < b.species.card)
    · rw [if_pos hq, ih]
      simp only [reduceCtorEq, false_and, false_iff]
      exact fun h => h.2 pop (by simp) hq.1
    · rw [if_neg hq]
      rw [ih]
      constructor
      · rintro ⟨h1, h2⟩
        refine ⟨h1, ?_⟩
        intro p hp
        rcases List.mem_cons.mp hp with rfl | hmem
        · subst h1
          intro hqq
          exact hq ⟨hqq, by simp⟩
        · exact h2 p hmem
      · rintro ⟨h1, h2⟩
        exact ⟨h1, fun p hp => h2 p (by simp [hp])⟩

theorem findPopGo_mem (S : Finset Str) (t : ℚ) :
    ∀ pops best p, findPopGo S t pops best = some p →
      (p ∈ pops ∧ popQualifies S t p) ∨ best = some p := by
  intro pops
  induction pops with
  | nil => intro best p h; right; exact h.symm ▸ rfl
  | cons pop rest ih =>
    intro best p h
    rw [findPopGo] at h
    by_cases hq : popQualifies S t pop ∧ (∀ b ∈ best, pop.species.card < b.species.card)
    · rw [if_pos hq] at h
      rcases ih _ p h with ⟨hm, hqq⟩ | heq
      · exact Or.inl ⟨by simp [hm], hqq⟩
      · cases heq
        exact Or.inl ⟨by simp, hq.1⟩
    · rw [if_neg hq] at h
      rcases ih _ p h with ⟨hm, hqq⟩ | heq
      · exact Or.inl ⟨by simp [hm], hqq⟩
      · exact Or.inr heq

theorem findPopGo_le_best (S : Finset Str) (t : ℚ) :
    ∀ pops best p b, findPopGo S t pops best = some p → best = some b →
      p.species.card ≤ b.species.card := by
  intro pops
  induction pops with
  | nil =>
    intro best p b h hb
    subst hb
    cases h
    exact le_refl _
  | cons pop rest ih =>
    intro best p b h hb
    subst hb
    rw [findPopGo] at h
    by_cases hq : popQualifies S t pop ∧ (∀ x ∈ some b, pop.species.card < x.species.card)
    · rw [if_pos hq] at h
      have h2 := hq.2 b rfl
      have := ih _ p pop h rfl
      omega
    · rw [if_neg hq] at h
      exact ih _ p b h rfl

theorem findPopGo_min (S : Finset Str) (t : ℚ) :
    ∀ pops best p q, findPopGo S t pops best = some p → q ∈ pops →
      popQualifies S t q → p.species.card ≤ q.species.card := by
  intro pops
  induction pops with
  | nil => intro best p q _ hq; cases hq
  | cons pop rest ih =>
    intro best p q h hq hqual
    rw [findPopGo] at h
    rcases List.mem_cons.mp hq with rfl | hmem
    · by_cases hc : popQualifies S t q ∧ (∀ b ∈ best, q.species.card < b.species.card)
      · rw [if_pos hc] at h
        exact findPopGo_le_best S t rest _ p q h rfl
      · rw [if_neg hc] at h
        push_neg at hc
        obtain ⟨b, hb, hble⟩ := hc hqual
        cases best with
        | none => cases hb
        | some b0 =>
          have hb0 : b = b0 := by cases hb; rfl
          subst hb0
          have := findPopGo_le_best S t rest _ p b h rfl
          omega
    · by_cases hc : popQualifies S t pop ∧ (∀ b ∈ best, pop.species.card < b.species.card)
      · rw [if_pos hc] at h; exact ih _ p q h hmem hqual
      · rw [if_neg hc] at h; exact ih _ p q h hmem hqual


theorem le_maxListQ_left (x : ℚ) (xs : List ℚ) : x ≤ maxListQ x xs := by
  induction xs generalizing x with
  | nil => exact le_refl _
  | cons a xs ih =>
    unfold maxListQ at *
    simp only [List.foldl_cons]
    exact le_trans (le_max_left x a) (ih (max x a))

theorem le_maxListQ_mem {y : ℚ} {xs : List ℚ} (x : ℚ) (hy : y ∈ xs) :
    y ≤ maxListQ x xs := by
  induction xs generalizing x with
  | nil => cases hy
  | cons a xs ih =>
    unfold maxListQ at *
    simp only [List.foldl_cons]
    rcases List.mem_cons.mp hy with rfl | hmem
    · exact le_trans (le_max_right x y) (le_maxListQ_left _ xs)
    · exact ih (max x a) hmem

theorem mem_kidsLeaves {c : TreeNode} {cs : List TreeNode} {x : Str}
    (hc : c ∈ cs) (hx : x ∈ getLeaves c) : x ∈ kidsLeaves cs := by
  induction cs with
  | nil => cases hc
  | cons a cs ih =>
    rcases List.mem_cons.mp hc with rfl | hmem
    · simp [kidsLeaves, hx]
    · simp [kidsLeaves]
      exact Or.inr (ih hmem)

theorem kidsLeaves_mem {cs : List TreeNode} {x : Str} (hx : x ∈ kidsLeaves cs) :
    ∃ c ∈ cs, x ∈ getLeaves c := by
  induction cs with
  | nil => cases hx
  | cons a cs ih =>
    rw [kidsLeaves] at hx
    rcases List.mem_append.mp hx with h | h
    · exact ⟨a, by simp, h⟩
    · obtain ⟨c, hc, hxc⟩ := ih h
      exact ⟨c, by simp [hc], hxc⟩

theorem kidsDepths_eq_map (cs : List TreeNode) : kidsDepths cs = cs.map getDepth := by
  induction cs with
  | nil => rfl
  | cons c cs ih => simp [kidsDepths, ih]

theorem nonnegKids_mem {cs : List TreeNode} {c : TreeNode} (h : NonnegKids cs)
    (hc : c ∈ cs) : NonnegBL c := by
  induction cs with
  | nil => cases hc
  | cons a cs ih =>
    rcases List.mem_cons.mp hc with rfl | hmem
    · exact h.1
    · exact ih h.2 hmem

theorem getDepth_nonneg (t : TreeNode) (h : NonnegBL t) : 0 ≤ getDepth t := by
  induction t using treeNodeRec with
  | h n bl th cs ih =>
    cases cs with
    | nil => exact h.1
    | cons c cs =>
      have hc0 : (0 : ℚ) ≤ getDepth c :=
        ih c (by simp) (nonnegKids_mem h.2 (by simp))
      have hm : (0 : ℚ) ≤ maxListQ (getDepth c) (kidsDepths cs) :=
        le_trans hc0 (le_maxListQ_left _ _)
      have hbl : (0 : ℚ) ≤ bl := h.1
      unfold getDepth
      linarith

theorem getDepth_child_le {c : TreeNode} {cs : List TreeNode} (hc : c ∈ cs)
    (c0 : TreeNode) : getDepth c ≤ maxListQ (getDepth c0) (kidsDepths cs) := by
  rw [kidsDepths_eq_map]
  exact le_maxListQ_mem _ (List.mem_map_of_mem _ hc)

theorem drawTubesKids_cons (positions : Str → Option SpeciesPosition) (yScale tipY : ℚ)
    (c : TreeNode) (cs : List TreeNode) (nodeY childAge : ℚ) :
    drawTubesKids positions yScale tipY (c :: cs) nodeY childAge
      = ((drawSpeciesTubes positions yScale tipY c nodeY childAge).1
           ++ (drawTubesKids positions yScale tipY cs nodeY childAge).1,
         (drawSpeciesTubes positions yScale tipY c nodeY childAge).2
           :: (drawTubesKids positions yScale tipY cs nodeY childAge).2) := by
  rw [drawTubesKids]

theorem drawTubesKids_pops_all {positions : Str → Option SpeciesPosition}
    {yScale tipY : ℚ} {P : PopulationInfo → Prop} :
    ∀ (ds : List TreeNode) (nodeY childAge : ℚ),
      (∀ d ∈ ds, ∀ pop ∈ (drawSpeciesTubes positions yScale tipY d nodeY childAge).1, P pop) →
      ∀ pop ∈ (drawTubesKids positions yScale tipY ds nodeY childAge).1, P pop := by
  intro ds
  induction ds with
  | nil => intro nodeY childAge _ pop hp; rw [drawTubesKids] at hp; cases hp
  | cons d ds ih =>
    intro nodeY childAge h pop hp
    rw [drawTubesKids_cons] at hp
    rcases List.mem_append.mp hp with h1 | h1
    · exact h d (by simp) pop h1
    · exact ih nodeY childAge (fun e he => h e (by simp [he])) pop h1

theorem drawTubesKids_pops_mem {positions : Str → Option SpeciesPosition}
    {yScale tipY : ℚ} {d : TreeNode} {pop : PopulationInfo} :
    ∀ (ds : List TreeNode) (nodeY childAge : ℚ), d ∈ ds →
      pop ∈ (drawSpeciesTubes positions yScale tipY d nodeY childAge).1 →
      pop ∈ (drawTubesKids positions yScale tipY ds nodeY childAge).1 := by
  intro ds
  induction ds with
  | nil => intro _ _ hd; cases hd
  | cons a ds ih =>
    intro nodeY childAge hd hp
    rw [drawTubesKids_cons]
    rcases List.mem_cons.mp hd with rfl | hmem
    · exact List.mem_append_left _ hp
    · exact List.mem_append_right _ (ih nodeY childAge hmem hp)

/-- All populations pushed by `drawSpeciesTubes` have nonnegative start
time, given nonnegative branch lengths and a node age dominating the
subtree depth. -/
theorem drawTubes_startTime_nonneg (positions : Str → Option SpeciesPosition)
    (yScale tipY : ℚ) (t : TreeNode) :
    ∀ parentY nodeAge, NonnegBL t → getDepth t ≤ nodeAge →
      ∀ pop ∈ (drawSpeciesTubes positions yScale tipY t parentY nodeAge).1,
        0 ≤ pop.startTime := by
  induction t using treeNodeRec with
  | h n bl th cs ih =>
    intro parentY nodeAge hbl hage pop hpop
    cases cs with
    | nil =>
      rw [drawSpeciesTubes] at hpop
      cases hps : positions n with
      | none => rw [hps] at hpop; cases hpop
      | some pos =>
        rw [hps] at hpop
        simp only [List.mem_singleton] at hpop
        subst hpop
        exact le_refl 0
    | cons c cs2 =>
      have hd0 : (0 : ℚ) ≤ getDepth c := getDepth_nonneg c (nonnegKids_mem hbl.2 (by simp))
      have hmax : getDepth c ≤ maxListQ (getDepth c) (kidsDepths cs2) := le_maxListQ_left _ _
      have hageq : bl + maxListQ (getDepth c) (kidsDepths cs2) ≤ nodeAge := hage
      rw [drawSpeciesTubes] at hpop
      rcases List.mem_append.mp hpop with h1 | h1
      · refine drawTubesKids_pops_all (P := fun pop => 0 ≤ pop.startTime) (c :: cs2)
          (parentY - bl * yScale) (nodeAge - bl) ?_ pop h1
        intro d hd pop2 hp2
        have hdd : getDepth d ≤ nodeAge - bl := by
          have : getDepth d ≤ maxListQ (getDepth c) (kidsDepths cs2) := by
            rcases List.mem_cons.mp hd with rfl | hmem
            · exact le_maxListQ_left _ _
            · exact getDepth_child_le hmem c
          linarith
        exact ih d hd (parentY - bl * yScale) (nodeAge - bl)
          (nonnegKids_mem hbl.2 hd) hdd pop2 hp2
      · simp only [List.mem_singleton] at h1
        subst h1
        show (0 : ℚ) ≤ nodeAge - bl
        linarith

/-- The leaf population of any tip taxon is among the pushed
populations: membership exactly the taxon, start time 0, end time
nonnegative. -/
theorem drawTubes_leaf_pop (positions : Str → Option SpeciesPosition)
    (yScale tipY : ℚ) (t : TreeNode) :
    ∀ parentY nodeAge, NonnegBL t → getDepth t ≤ nodeAge →
      (∀ n ∈ getLeaves t, positions n ≠ none) →
      ∀ x ∈ getLeaves t,
        ∃ pop ∈ (drawSpeciesTubes positions yScale tipY t parentY nodeAge).1,
          pop.species = {x} ∧ pop.startTime = 0 ∧ 0 ≤ pop.endTime := by
  induction t using treeNodeRec with
  | h n bl th cs ih =>
    intro parentY nodeAge hbl hage hpos x hx
    cases cs with
    | nil =>
      have hxn : x = n := by simpa [getLeaves] using hx
      subst hxn
      cases hps : positions x with
      | none => exact absurd hps (hpos x (by simp [getLeaves]))
      | some pos =>
        rw [drawSpeciesTubes, hps]
        refine ⟨_, List.mem_singleton.mpr rfl, rfl, rfl, ?_⟩
        show (0 : ℚ) ≤ nodeAge
        have : getDepth (TreeNode.node x bl th []) = bl := rfl
        have hbl0 : (0 : ℚ) ≤ bl := hbl.1
        rw [this] at hage
        linarith
    | cons c cs2 =>
      have hx2 : x ∈ kidsLeaves (c :: cs2) := hx
      obtain ⟨d, hd, hxd⟩ := kidsLeaves_mem hx2
      have hdd : getDepth d ≤ nodeAge - bl := by
        have h1 : getDepth d ≤ maxListQ (getDepth c) (kidsDepths cs2) := by
          rcases List.mem_cons.mp hd with rfl | hmem
          · exact le_maxListQ_left _ _
          · exact getDepth_child_le hmem c
        have h2 : bl + maxListQ (getDepth c) (kidsDepths cs2) ≤ nodeAge := hage
        linarith
      have hposd : ∀ n2 ∈ getLeaves d, positions n2 ≠ none := by
        intro n2 hn2
        exact hpos n2 (mem_kidsLeaves hd hn2)
      obtain ⟨pop, hpm, hps, hst, hen⟩ := ih d hd (parentY - bl * yScale) (nodeAge - bl)
        (nonnegKids_mem hbl.2 hd) hdd hposd x hxd
      refine ⟨pop, ?_, hps, hst, hen⟩
      rw [drawSpeciesTubes]
      exact List.mem_append_left _
        (drawTubesKids_pops_mem (c :: cs2) (parentY - bl * yScale) (nodeAge - bl) hd hpm)

/-- The number of populations pushed equals the branch count. -/
theorem drawTubes_length (positions : Str → Option SpeciesPosition)
    (yScale tipY : ℚ) (t : TreeNode) :
    ∀ parentY nodeAge, (∀ n ∈ getLeaves t, positions n ≠ none) →
      (drawSpeciesTubes positions yScale tipY t parentY nodeAge).1.length
        = branchCount t := by
  induction t using treeNodeRec with
  | h n bl th cs ih =>
    intro parentY nodeAge hpos
    cases cs with
    | nil =>
      cases hps : positions n with
      | none => exact absurd hps (hpos n (by simp [getLeaves]))
      | some pos => rw [drawSpeciesTubes, hps]; rfl
    | cons c cs2 =>
      rw [drawSpeciesTubes]
      simp only [List.length_append, List.length_singleton]
      have hkids : ∀ (ds : List TreeNode), (∀ d ∈ ds, d ∈ c :: cs2) →
          (drawTubesKids positions yScale tipY ds (parentY - bl * yScale)
            (nodeAge - bl)).1.length = kidsBranchCount ds := by
        intro ds
        induction ds with
        | nil => intro _; rw [drawTubesKids]; rfl
        | cons d ds2 ihd =>
          intro hsub
          rw [drawTubesKids_cons]
          simp only [List.length_append]
          rw [ihd (fun e he => hsub e (by simp [he]))]
          rw [ih d (hsub d (by simp)) (parentY - bl * yScale) (nodeAge - bl)
            (fun n2 hn2 => hpos n2 (mem_kidsLeaves (hsub d (by simp)) hn2))]
          rfl
      rw [hkids (c :: cs2) (fun e he => he)]
      show kidsBranchCount (c :: cs2) + 1 = branchCount (.node n bl th (c :: cs2))
      rw [branchCount]
      omega





theorem flattenLines_cons (l : List Nat) (ls : List (List Nat)) :
    flattenLines (l :: ls) = l ++ 10 :: flattenLines ls := rfl

theorem flattenLines_length_cons (l : List Nat) (ls : List (List Nat)) :
    (flattenLines (l :: ls)).length = l.length + 1 + (flattenLines ls).length := by
  rw [flattenLines_cons]
  simp
  omega

theorem scanOffsets_line (size : Nat) (l : List Nat) (hl : NlFree l)
    (rest : List Nat) (pos : Nat) :
    scanOffsets size (l ++ 10 :: rest) pos
      = (if pos + l.length + 1 < size then [pos + l.length + 1] else [])
        ++ scanOffsets size rest (pos + l.length + 1) := by
  induction l generalizing pos with
  | nil =>
    simp only [List.nil_append, List.length_nil]
    rw [scanOffsets]
    by_cases hc : pos + 1 < size
    · rw [if_pos ⟨rfl, hc⟩, if_pos (by omega : pos + 0 + 1 < size)]
      simp
    · rw [if_neg (fun hx => hc hx.2), if_neg (by omega : ¬ pos + 0 + 1 < size)]
      simp
  | cons b l ih =>
    have hb : b ≠ 10 := hl b (by simp)
    rw [List.cons_append, scanOffsets, if_neg (fun hx => hb hx.1)]
    rw [ih (fun x hx => hl x (by simp [hx])) (pos + 1)]
    have : pos + 1 + l.length + 1 = pos + (b :: l).length + 1 := by simp; omega
    rw [this]

theorem scanOffsets_flatten (lines : List (List Nat)) (h : ∀ l ∈ lines, NlFree l) :
    ∀ pos size, size = pos + (flattenLines lines).length →
      scanOffsets size (flattenLines lines) pos = (lineStarts lines pos).drop 1 := by
  induction lines with
  | nil => intro pos size _; rw [show flattenLines [] = [] from rfl, scanOffsets]; rfl
  | cons l ls ih =>
    intro pos size hsize
    rw [flattenLines_cons, scanOffsets_line size l (h l (by simp)) _ pos]
    rw [ih (fun x hx => h x (by simp [hx])) (pos + l.length + 1) size
      (by rw [hsize, flattenLines_length_cons]; omega)]
    rw [lineStarts]
    cases ls with
    | nil =>
      rw [if_neg]
      · rfl
      · rw [hsize, flattenLines_length_cons]
        simp [flattenLines]
        omega
    | cons m ms =>
      rw [if_pos]
      · rw [lineStarts]
        rfl
      · rw [hsize, flattenLines_length_cons]
        rw [flattenLines_length_cons]
        omega

theorem lineStarts_length (lines : List (List Nat)) (pos : Nat) :
    (lineStarts lines pos).length = lines.length := by
  induction lines generalizing pos with
  | nil => rfl
  | cons l ls ih => rw [lineStarts]; simp [ih]

theorem lineStarts_lt (lines : List (List Nat)) (pos : Nat) :
    ∀ x ∈ lineStarts lines pos, x < pos + (flattenLines lines).length := by
  induction lines generalizing pos with
  | nil => intro x hx; cases hx
  | cons l ls ih =>
    intro x hx
    rw [lineStarts] at hx
    rw [flattenLines_length_cons]
    rcases List.mem_cons.mp hx with rfl | hmem
    · omega
    · have := ih (pos + l.length + 1) x hmem
      omega

theorem buildOffsets_flatten (lines : List (List Nat)) (h : ∀ l ∈ lines, NlFree l) :
    buildOffsets (flattenLines lines) false = lineStarts lines 0 := by
  rw [buildOffsets]
  simp only [Bool.false_eq_true, false_and, if_false]
  rw [scanOffsets_flatten lines h 0 _ (by omega)]
  cases lines with
  | nil =>
    rw [dif_pos (by simp)]
    rw [if_pos]
    · rfl
    · simp [flattenLines, lineStarts]
  | cons l ls =>
    have hline : (0 : Nat) :: (lineStarts (l :: ls) 0).drop 1 = lineStarts (l :: ls) 0 := by
      rw [lineStarts]; rfl
    rw [hline]
    rw [dif_pos (by rw [lineStarts]; simp)]
    rw [if_neg]
    have hlast : (lineStarts (l :: ls) 0).getLast (by rw [lineStarts]; simp)
        ∈ lineStarts (l :: ls) 0 := List.getLast_mem _
    have := lineStarts_lt (l :: ls) 0 _ hlast
    omega

theorem buildOffsets_true_eq (bytes : List Nat) :
    buildOffsets bytes true = (buildOffsets bytes false).drop 1 := by
  rw [buildOffsets, buildOffsets]
  simp only [Bool.false_eq_true, false_and, if_false, true_and]
  generalize (if h : (0 :: scanOffsets bytes.length bytes 0) ≠ [] then
      if bytes.length ≤ (0 :: scanOffsets bytes.length bytes 0).getLast h then
        (0 :: scanOffsets bytes.length bytes 0).dropLast
      else 0 :: scanOffsets bytes.length bytes 0
    else 0 :: scanOffsets bytes.length bytes 0) = offs1
  by_cases hc : offs1.isEmpty
  · rw [if_neg (by simp [hc])]
    rw [List.isEmpty_iff.mp hc]
    rfl
  · rw [if_pos (by simp [hc])]

theorem buildOffsets_flatten_skip (lines : List (List Nat)) (h : ∀ l ∈ lines, NlFree l) :
    buildOffsets (flattenLines lines) true = (lineStarts lines 0).drop 1 := by
  rw [buildOffsets_true_eq, buildOffsets_flatten lines h]


theorem drop_length_append {α} (A B : List α) (k : Nat) :
    (A ++ B).drop (A.length + k) = B.drop k := by
  induction A with
  | nil => simp
  | cons a A ih =>
    show List.drop ((a :: A).length + k) ((a :: A) ++ B) = B.drop k
    rw [List.cons_append, List.length_cons,
      show A.length + 1 + k = (A.length + k) + 1 by omega, List.drop_succ_cons]
    exact ih

theorem take_length_succ_append {α} (A : List α) (b : α) (B : List α) :
    (A ++ b :: B).take (A.length + 1) = A ++ [b] := by
  induction A with
  | nil => simp
  | cons a A ih => simpa using ih

theorem lineStarts_getD (lines : List (List Nat)) :
    ∀ i pos, i < lines.length →
      (lineStarts lines pos).getD i 0 = pos + (flattenLines (lines.take i)).length := by
  induction lines with
  | nil => intro i pos hi; cases hi
  | cons l ls ih =>
    intro i pos hi
    cases i with
    | zero => rw [lineStarts]; simp [flattenLines]
    | succ j =>
      rw [lineStarts]
      show (lineStarts ls (pos + l.length + 1)).getD j 0 = _
      rw [ih j (pos + l.length + 1) (by simpa using hi)]
      rw [List.take_succ_cons, flattenLines_length_cons]
      omega

theorem flatten_drop (lines : List (List Nat)) :
    ∀ i, i < lines.length →
      (flattenLines lines).drop ((flattenLines (lines.take i)).length)
        = flattenLines (lines.drop i) := by
  induction lines with
  | nil => intro i hi; cases hi
  | cons l ls ih =>
    intro i hi
    cases i with
    | zero => simp [flattenLines]
    | succ j =>
      rw [List.take_succ_cons, List.drop_succ_cons, flattenLines_length_cons,
        flattenLines_cons]
      have : l.length + 1 + (flattenLines (ls.take j)).length
          = (l ++ [(10 : Nat)]).length + (flattenLines (ls.take j)).length := by
        simp
      rw [this, show l ++ (10 : Nat) :: flattenLines ls = (l ++ [10]) ++ flattenLines ls by simp]
      rw [drop_length_append]
      exact ih j (by simpa using hi)

theorem trimBytes_append_nl (l : List Nat) : trimBytes (l ++ [10]) = trimBytes l := by
  unfold trimBytes
  by_cases hc : l.dropWhile isWsByte = []
  · rw [hc]
    rw [show l ++ [(10 : Nat)] = l ++ 10 :: [] from rfl]
    rw [List.dropWhile_append]
    rw [hc]
    simp [List.dropWhile, isWsByte]
  · rw [List.dropWhile_append, if_neg (by simp [hc])]
    have h3 : (l.dropWhile isWsByte ++ [10]).reverse = 10 :: (l.dropWhile isWsByte).reverse := by
      simp
    rw [h3, List.dropWhile_cons]
    norm_num [isWsByte]

/-- The slice `getTree` reads for index `j`, over a file of terminated
lines, is line `j` plus its terminator. -/
theorem getTree_slice (lines : List (List Nat)) (j : Nat) (hj : j < lines.length) :
    ((flattenLines lines).drop ((flattenLines (lines.take j)).length)).take
        (lines.getD j []).length.succ = lines.getD j [] ++ [10] := by
  rw [flatten_drop lines j hj]
  obtain ⟨m, ms, hms⟩ : ∃ m ms, lines.drop j = m :: ms := by
    cases hd : lines.drop j with
    | nil =>
      have := List.drop_eq_nil_iff.mp hd
      omega
    | cons m ms => exact ⟨m, ms, rfl⟩
  rw [hms, flattenLines_cons]
  have hm : lines.getD j [] = m := by
    rw [List.getD_eq_getElem?_getD]
    have h2 : lines[j]? = some m := by
      have h4 := List.getElem?_drop lines j 0
      simp only [Nat.add_zero] at h4
      rw [← h4, hms]
      simp
    rw [h2]
    rfl
  rw [hm]
  have : m.length.succ = m.length + 1 := rfl
  rw [this, take_length_succ_append]


theorem flattenLines_append (A B : List (List Nat)) :
    flattenLines (A ++ B) = flattenLines A ++ flattenLines B := by
  induction A with
  | nil => rfl
  | cons l ls ih => rw [List.cons_append, flattenLines_cons, flattenLines_cons, ih]; simp

theorem flen_take_succ (lines : List (List Nat)) :
    ∀ i, i < lines.length →
      (flattenLines (lines.take (i + 1))).length
        = (flattenLines (lines.take i)).length + (lines.getD i []).length + 1 := by
  induction lines with
  | nil => intro i hi; cases hi
  | cons l ls ih =>
    intro i hi
    cases i with
    | zero => simp [flattenLines_cons, flattenLines]
    | succ j =>
      rw [List.take_succ_cons, List.take_succ_cons, flattenLines_length_cons,
        flattenLines_length_cons, ih j (by simpa using hi)]
      have : (l :: ls).getD (j + 1) [] = ls.getD j [] := rfl
      rw [this]
      omega

theorem offs_end_eq (lines : List (List Nat)) (i : Nat) (hi : i < lines.length) :
    (if i + 1 < (lineStarts lines 0).length then (lineStarts lines 0).getD (i + 1) 0
     else (flattenLines lines).length)
      = (flattenLines (lines.take (i + 1))).length := by
  rw [lineStarts_length]
  by_cases hc : i + 1 < lines.length
  · rw [if_pos hc, lineStarts_getD lines (i + 1) 0 hc]
    omega
  · rw [if_neg hc]
    have : lines.take (i + 1) = lines := List.take_of_length_le (by omega)
    rw [this]

/-- `getTree` on a file of newline-terminated lines returns the trimmed
line. -/
theorem getTree_flatten_eq (lines : List (List Nat)) (h : ∀ l ∈ lines, NlFree l)
    (i : Nat) (hi : i < lines.length) :
    getTree (flattenLines lines) false (i : ℤ) = trimBytes (lines.getD i []) := by
  rw [getTree]
  simp only [buildOffsets_flatten lines h]
  rw [if_neg]
  · simp only [Int.toNat_natCast]
    rw [lineStarts_getD lines i 0 hi]
    simp only [Nat.zero_add]
    have he := offs_end_eq lines i hi
    rw [he]
    have harith : (flattenLines (lines.take (i + 1))).length
        - (flattenLines (lines.take i)).length = (lines.getD i []).length + 1 := by
      rw [flen_take_succ lines i hi]
      omega
    rw [harith]
    have hslice := getTree_slice lines i hi
    rw [show (lines.getD i []).length + 1 = (lines.getD i []).length.succ from rfl, hslice]
    exact trimBytes_append_nl _
  · rw [lineStarts_length]
    push_neg
    constructor
    · omega
    · exact_mod_cast hi

/-- Count without skip. -/
theorem getTreeCount_flatten (lines : List (List Nat)) (h : ∀ l ∈ lines, NlFree l) :
    getTreeCount (flattenLines lines) false = lines.length := by
  rw [getTreeCount, buildOffsets_flatten lines h, lineStarts_length]

/-- Count with skipFirstLine. -/
theorem getTreeCount_flatten_skip (lines : List (List Nat)) (h : ∀ l ∈ lines, NlFree l) :
    getTreeCount (flattenLines lines) true = lines.length - 1 := by
  rw [getTreeCount, buildOffsets_flatten_skip lines h, List.length_drop, lineStarts_length]

/-- `getTree 0` with skipFirstLine returns the trimmed second line. -/
theorem getTree_flatten_skip_zero (l0 l1 : List Nat) (rest : List (List Nat))
    (h : ∀ l ∈ l0 :: l1 :: rest, NlFree l) :
    getTree (flattenLines (l0 :: l1 :: rest)) true 0 = trimBytes l1 := by
  rw [getTree]
  simp only [buildOffsets_flatten_skip (l0 :: l1 :: rest) h]
  have hdrop : (lineStarts (l0 :: l1 :: rest) 0).drop 1
      = lineStarts (l1 :: rest) (0 + l0.length + 1) := by
    rw [lineStarts]
    rfl
  rw [if_neg]
  · simp only [Int.toNat_zero]
    rw [hdrop]
    have hs : (lineStarts (l1 :: rest) (0 + l0.length + 1)).getD 0 0
        = (flattenLines ((l0 :: l1 :: rest).take 1)).length := by
      rw [lineStarts]
      simp [flattenLines_cons, flattenLines]
    rw [hs]
    have he : (if 0 + 1 < (lineStarts (l1 :: rest) (0 + l0.length + 1)).length
        then (lineStarts (l1 :: rest) (0 + l0.length + 1)).getD (0 + 1) 0
        else (flattenLines (l0 :: l1 :: rest)).length)
        = (flattenLines ((l0 :: l1 :: rest).take 2)).length := by
      cases rest with
      | nil =>
        rw [lineStarts_length, if_neg (by simp)]
        rfl
      | cons m ms =>
        rw [lineStarts_length, if_pos (by simp)]
        rw [lineStarts_getD (l1 :: m :: ms) 1 (0 + l0.length + 1) (by simp)]
        show 0 + l0.length + 1 + (flattenLines [l1]).length = (flattenLines [l0, l1]).length
        simp [flattenLines]
        omega
    rw [he]
    have harith : (flattenLines ((l0 :: l1 :: rest).take 2)).length
        - (flattenLines ((l0 :: l1 :: rest).take 1)).length
        = ((l0 :: l1 :: rest).getD 1 []).length + 1 := by
      rw [flen_take_succ (l0 :: l1 :: rest) 1 (by simp)]
      omega
    rw [harith]
    have hslice := getTree_slice (l0 :: l1 :: rest) 1 (by simp)
    rw [show ((l0 :: l1 :: rest).getD 1 []).length + 1
        = ((l0 :: l1 :: rest).getD 1 []).length.succ from rfl, hslice]
    exact trimBytes_append_nl _
  · rw [hdrop, lineStarts_length]
    push_neg
    constructor
    · omega
    · simp



theorem natToChars_digits (m : ℕ) : ∀ c ∈ natToChars m, c.isDigit = true := by
  intro c hc
  rw [natToChars] at hc
  by_cases hm : m = 0
  · rw [if_pos hm] at hc
    simp at hc
    subst hc
    decide
  · rw [if_neg hm] at hc
    obtain ⟨d, hd, rfl⟩ := List.mem_map.mp hc
    have hd10 : d < 10 := Nat.digits_lt_base (by norm_num) (List.mem_reverse.mp hd)
    interval_cases d <;> decide

theorem natToChars_ne_nil (m : ℕ) : natToChars m ≠ [] := by
  rw [natToChars]
  by_cases hm : m = 0
  · rw [if_pos hm]; simp
  · rw [if_neg hm]
    simp
    exact Nat.digits_ne_nil_iff_ne_zero.mpr hm

theorem foldr_digits_eq_ofDigits (L : List ℕ) :
    L.foldr (fun d a => a * 10 + d) 0 = Nat.ofDigits 10 L := by
  induction L with
  | nil => rfl
  | cons d L ih =>
    rw [List.foldr_cons, ih, Nat.ofDigits_cons]
    ring

theorem charsToNat_natToChars (m : ℕ) : charsToNat (natToChars m) = m := by
  rw [natToChars]
  by_cases hm : m = 0
  · rw [if_pos hm, hm]
    rfl
  · rw [if_neg hm]
    rw [charsToNat, List.foldl_map, List.foldl_reverse]
    have hstep : ∀ (L : List ℕ), (∀ d ∈ L, d < 10) →
        L.foldr (fun d a => a * 10 + digitVal d.digitChar) 0
          = L.foldr (fun d a => a * 10 + d) 0 := by
      intro L hL
      induction L with
      | nil => rfl
      | cons d L ihL =>
        rw [List.foldr_cons, List.foldr_cons,
          ihL (fun x hx => hL x (by simp [hx]))]
        have hd10 : d < 10 := hL d (by simp)
        have : digitVal d.digitChar = d := by
          interval_cases d <;> decide
        rw [this]
    rw [hstep _ (fun d hd => Nat.digits_lt_base (by norm_num) hd)]
    rw [foldr_digits_eq_ofDigits, Nat.ofDigits_digits]

theorem charsToNat_replicate_zero (k : ℕ) :
    ∀ s : Str, (List.replicate k '0' ++ s).foldl (fun a c => a * 10 + digitVal c) 0
      = s.foldl (fun a c => a * 10 + digitVal c) 0 := by
  induction k with
  | zero => intro s; rfl
  | succ j ih =>
    intro s
    rw [List.replicate_succ, List.cons_append, List.foldl_cons]
    have : (0 * 10 + digitVal '0') = 0 := by decide
    rw [this]
    exact ih s

theorem charsToNat_padSix (s : Str) : charsToNat (padSix s) = charsToNat s := by
  rw [padSix, charsToNat, charsToNat, charsToNat_replicate_zero]

theorem padSix_digits (s : Str) (h : ∀ c ∈ s, c.isDigit = true) :
    ∀ c ∈ padSix s, c.isDigit = true := by
  intro c hc
  rw [padSix] at hc
  rcases List.mem_append.mp hc with h1 | h1
  · have := List.eq_of_mem_replicate h1
    subst this
    decide
  · exact h c h1

theorem natToChars_length_le (m : ℕ) (hm : m < 1000000) :
    (natToChars m).length ≤ 6 := by
  rw [natToChars]
  by_cases h0 : m = 0
  · rw [if_pos h0]; simp
  · rw [if_neg h0]
    simp only [List.length_map, List.length_reverse]
    by_contra hlen
    push_neg at hlen
    have hle := Nat.base_pow_length_digits_le 10 m (by norm_num) h0
    have h7 : (10 : ℕ) ^ 7 ≤ 10 ^ (Nat.digits 10 m).length :=
      Nat.pow_le_pow_right (by norm_num) (by omega)
    have : (10 : ℕ) ^ 7 ≤ 10 * m := le_trans h7 hle
    norm_num at this
    omega

theorem padSix_length (s : Str) (h : s.length ≤ 6) : (padSix s).length = 6 := by
  rw [padSix]
  simp
  omega

theorem jsParseFloat_fixedSixOfNat (n : ℕ) :
    jsParseFloat (fixedSixOfNat n) = some ((n : ℚ) / 1000000) := by
  rw [fixedSixOfNat]
  rw [jsParseFloat_decimal _ _ (natToChars_digits _)
    (padSix_digits _ (natToChars_digits _)) (natToChars_ne_nil _)]
  rw [charsToNat_natToChars, charsToNat_padSix, charsToNat_natToChars]
  rw [padSix_length _ (natToChars_length_le _ (Nat.mod_lt _ (by norm_num)))]
  congr 1
  have hsplit : (n : ℚ) = ((n / 1000000 * 1000000 + n % 1000000 : ℕ) : ℚ) := by
    congr 1
    omega
  rw [hsplit]
  push_cast
  field_simp
  ring

theorem toFixedSix_of_nat_div (n : ℕ) :
    toFixedSix ((n : ℚ) / 1000000) = fixedSixOfNat n := by
  rw [toFixedSix]
  have hfloor : ⌊(n : ℚ) / 1000000 * 1000000 + 1 / 2⌋ = (n : ℤ) := by
    have h1 : (n : ℚ) / 1000000 * 1000000 = (n : ℚ) := by field_simp
    rw [h1]
    have h2 : ((n : ℚ) : ℚ) = ((n : ℤ) : ℚ) := by push_cast; ring
    rw [h2, Int.floor_int_add]
    norm_num
  rw [hfloor]
  rw [if_neg (by omega)]
  simp only [Int.toNat_natCast]

theorem exactSix_exists (q : ℚ) (hq : 0 ≤ q) (hd : ExactSix q) :
    ∃ n : ℕ, q = (n : ℚ) / 1000000 := by
  obtain ⟨k, hk⟩ := hd
  have hk0 : k ≠ 0 := by
    intro h0
    rw [h0, Nat.mul_zero] at hk
    exact absurd hk (by norm_num)
  have hnum : 0 ≤ q.num := Rat.num_nonneg.mpr hq
  refine ⟨q.num.toNat * k, ?_⟩
  have h1 : ((q.num.toNat * k : ℕ) : ℚ) = (q.num : ℚ) * (k : ℚ) := by
    have h0 : ((q.num.toNat : ℚ)) = ((q.num : ℚ)) := by
      exact_mod_cast congrArg (fun z : ℤ => (z : ℚ)) (Int.toNat_of_nonneg hnum)
    push_cast
    rw [h0]
  rw [h1]
  have h2 : (1000000 : ℚ) = (q.den : ℚ) * (k : ℚ) := by
    exact_mod_cast congrArg (fun m : ℕ => (m : ℚ)) hk
  rw [h2]
  rw [mul_div_mul_right _ _ (by exact_mod_cast hk0)]
  exact (Rat.num_div_den q).symm

/-- Printing then reparsing a nonnegative six-decimal-exact rational is
the identity. -/
theorem jsParseFloat_toFixedSix (q : ℚ) (hq : 0 ≤ q) (hd : ExactSix q) :
    jsParseFloat (toFixedSix q) = some q := by
  obtain ⟨n, rfl⟩ := exactSix_exists q hq hd
  rw [toFixedSix_of_nat_div, jsParseFloat_fixedSixOfNat]

/-- All characters printed by `toFixedSix` on a nonnegative exact value
are digits or the decimal point. -/
theorem toFixedSix_chars (q : ℚ) (hq : 0 ≤ q) (hd : ExactSix q) :
    ∀ c ∈ toFixedSix q, c.isDigit = true ∨ c = '.' := by
  obtain ⟨n, rfl⟩ := exactSix_exists q hq hd
  rw [toFixedSix_of_nat_div]
  intro c hc
  rw [fixedSixOfNat] at hc
  rcases List.mem_append.mp hc with h1 | h1
  · exact Or.inl (natToChars_digits _ c h1)
  · rcases List.mem_cons.mp h1 with rfl | h2
    · exact Or.inr rfl
    · exact Or.inl (padSix_digits _ (natToChars_digits _) c h2)



theorem dropWhile_length_le {α} (p : α → Bool) (l : List α) :
    (l.dropWhile p).length ≤ l.length := by
  induction l with
  | nil => exact le_refl _
  | cons a l ih =>
    rw [List.dropWhile_cons]
    by_cases hp : p a = true
    · rw [if_pos hp]; simp; omega
    · rw [if_neg hp]

theorem trimChars_length_le_dropWhile (s : Str) :
    (trimChars s).length ≤ (s.dropWhile isWsChar).length := by
  rw [trimChars]
  calc ((s.dropWhile isWsChar).reverse.dropWhile isWsChar).reverse.length
      = ((s.dropWhile isWsChar).reverse.dropWhile isWsChar).length := List.length_reverse _
    _ ≤ (s.dropWhile isWsChar).reverse.length := dropWhile_length_le _ _
    _ = (s.dropWhile isWsChar).length := List.length_reverse _

theorem head_not_ws_of_trimmed {c : Char} {r : Str}
    (h : trimChars (c :: r) = c :: r) : isWsChar c = false := by
  by_contra hw
  have hw2 : isWsChar c = true := by
    cases hx : isWsChar c with
    | false => exact absurd hx hw
    | true => rfl
  have h1 : (c :: r).dropWhile isWsChar = r.dropWhile isWsChar := by
    rw [List.dropWhile_cons, if_pos hw2]
  have h2 := trimChars_length_le_dropWhile (c :: r)
  rw [h, h1] at h2
  have h3 := dropWhile_length_le isWsChar r
  simp at h2
  omega

theorem getLast?_eq_reverse_head (s : Str) : s.getLast? = s.reverse.head? := by
  cases s with
  | nil => rfl
  | cons c r =>
    rw [List.getLast?_eq_getLast _ (by simp), List.head?_eq_head (by simp)]
    congr 1
    rw [List.getLast_eq_head_reverse]

theorem trimChars_eq_self_of (s : Str)
    (h1 : ∀ c, s.head? = some c → isWsChar c = false)
    (h2 : ∀ c, s.getLast? = some c → isWsChar c = false) :
    trimChars s = s := by
  cases s with
  | nil => rfl
  | cons c r =>
    rw [trimChars]
    rw [dropWhile_cons_of_neg (h1 c rfl)]
    have hrev : (c :: r).reverse.dropWhile isWsChar = (c :: r).reverse := by
      cases hr : (c :: r).reverse with
      | nil => rfl
      | cons d ds =>
        apply dropWhile_cons_of_neg
        apply h2
        rw [getLast?_eq_reverse_head, hr]
        rfl
    rw [hrev, List.reverse_reverse]

theorem trimChars_append_space (s : Str) :
    trimChars (s ++ [' ']) = trimChars s := by
  rw [trimChars, trimChars, List.dropWhile_append]
  by_cases hc : (s.dropWhile isWsChar).isEmpty
  · rw [if_pos hc]
    rw [List.isEmpty_iff.mp hc]
    rfl
  · rw [if_neg hc]
    have h3 : (s.dropWhile isWsChar ++ [' ']).reverse
        = ' ' :: (s.dropWhile isWsChar).reverse := by simp
    rw [h3, List.dropWhile_cons]
    norm_num [isWsChar]

theorem mem_of_mem_dropWhile {α} {p : α → Bool} {x : α} :
    ∀ {l : List α}, x ∈ l.dropWhile p → x ∈ l := by
  intro l
  induction l with
  | nil => intro h; cases h
  | cons a l ih =>
    intro h
    rw [List.dropWhile_cons] at h
    by_cases hp : p a = true
    · rw [if_pos hp] at h
      exact List.mem_cons_of_mem _ (ih h)
    · rw [if_neg hp] at h
      exact h

/-- `stripArrow` is the identity on arrow-free strings. -/
theorem stripArrow_id (s : Str) (h : '→' ∉ s) : stripArrow s = s := by
  rw [stripArrow]
  by_cases hd : (s.dropWhile isWsChar).takeWhile Char.isDigit = []
  · rw [if_pos (by simp [hd])]
  · rw [if_neg (by simp [hd])]
    split
    next c r heq =>
      rw [if_neg]
      intro hceq
      subst hceq
      have h0 : '→' ∈ (((s.dropWhile isWsChar).drop
          ((s.dropWhile isWsChar).takeWhile Char.isDigit).length).dropWhile isWsChar) := by
        rw [heq]; simp
      exact h (mem_of_mem_dropWhile (List.mem_of_mem_drop (mem_of_mem_dropWhile h0)))
    next => rfl

/-- `stripTrailingCount` is the identity on semicolon-free strings. -/
theorem stripTrailingCount_id (s : Str) (h : ';' ∉ s) : stripTrailingCount s = s := by
  rw [stripTrailingCount]
  by_cases hd : (s.reverse.dropWhile isWsChar).takeWhile Char.isDigit = []
  · rw [if_pos (by simp [hd])]
  · rw [if_neg (by simp [hd])]
    split
    next rest heq =>
      exfalso
      have h0 : ';' ∈ (((s.reverse.dropWhile isWsChar).drop
          ((s.reverse.dropWhile isWsChar).takeWhile Char.isDigit).length).dropWhile isWsChar) := by
        rw [heq]; simp
      exact h (List.mem_reverse.mp
        (mem_of_mem_dropWhile (List.mem_of_mem_drop (mem_of_mem_dropWhile h0))))
    next => rfl

/-- `stripNumParen` is the identity when the string holds no opening
parenthesis. -/
theorem stripNumParen_id_noparen (s : Str) (h : '(' ∉ s) : stripNumParen s = s := by
  rw [stripNumParen]
  by_cases hd : (s.dropWhile isWsChar).takeWhile Char.isDigit = []
  · rw [if_pos (by simp [hd])]
  · rw [if_neg (by simp [hd])]
    by_cases hw : (((s.dropWhile isWsChar).drop
        ((s.dropWhile isWsChar).takeWhile Char.isDigit).length).takeWhile isWsChar) = []
    · rw [if_pos (by simp [hw])]
    · rw [if_neg (by simp [hw])]
      split
      next r heq =>
        exfalso
        have h0 : '(' ∈ ((s.dropWhile isWsChar).drop
            ((s.dropWhile isWsChar).takeWhile Char.isDigit).length).drop
            (((s.dropWhile isWsChar).drop
              ((s.dropWhile isWsChar).takeWhile Char.isDigit).length).takeWhile isWsChar).length := by
          rw [heq]; simp
        exact h (mem_of_mem_dropWhile (List.mem_of_mem_drop (List.mem_of_mem_drop h0)))
      next => rfl

/-- `stripNumParen` is the identity when the string opens with `(`. -/
theorem stripNumParen_id_paren (s : Str) (h : s.head? = some '(') :
    stripNumParen s = s := by
  cases s with
  | nil => cases h
  | cons c r =>
    have hc : c = '(' := by cases h; rfl
    subst hc
    rw [stripNumParen]
    rw [dropWhile_cons_of_neg (by decide)]
    have hds : ('(' :: r).takeWhile Char.isDigit = [] := by
      rw [List.takeWhile_cons, if_neg (by decide)]
    simp [hds]

/-- `stripLastSemi` is the identity on semicolon-free strings. -/
theorem stripLastSemi_id (s : Str) (h : ';' ∉ s) : stripLastSemi s = s := by
  rw [stripLastSemi]
  split
  next rest heq =>
    exfalso
    exact h (List.mem_reverse.mp (by rw [heq]; simp))
  next => rfl


/-- A good character for the species printer: not a semicolon, not the
arrow. -/
def GoodChar (c : Char) : Prop := c ≠ ';' ∧ c ≠ '→'

theorem isDigit_goodChar {c : Char} (h : c.isDigit = true) : GoodChar c := by
  constructor <;> (rintro rfl; simp [Char.isDigit] at h)

theorem toFixedSix_goodChar (q : ℚ) (hq : 0 ≤ q) (hd : ExactSix q) :
    ∀ c ∈ toFixedSix q, GoodChar c := by
  intro c hc
  rcases toFixedSix_chars q hq hd c hc with h1 | rfl
  · exact isDigit_goodChar h1
  · exact ⟨by decide, by decide⟩

theorem validName_goodChar {name : Str} (h : ValidName name) :
    ∀ c ∈ name, GoodChar c := by
  intro c hc
  refine ⟨?_, (h.1 c hc).2⟩
  intro hceq
  subst hceq
  have := (h.1 ';' hc).1
  simp [isNameStop] at this

theorem validKids_mem {cs : List TreeNode} {c : TreeNode} (h : ValidKids cs)
    (hc : c ∈ cs) : ValidTree c := by
  induction cs with
  | nil => cases hc
  | cons a cs ih =>
    rcases List.mem_cons.mp hc with rfl | hmem
    · exact h.1
    · exact ih h.2 hmem

theorem kidsNewick_chars_of (cs : List TreeNode)
    (h : ∀ c ∈ cs, ∀ x ∈ toNewick c, GoodChar x) :
    ∀ x ∈ kidsNewick cs, GoodChar x := by
  induction cs with
  | nil => intro x hx; cases hx
  | cons c cs ih =>
    intro x hx
    rw [kidsNewick] at hx
    rcases List.mem_cons.mp hx with rfl | hmem
    · exact ⟨by decide, by decide⟩
    · rcases List.mem_append.mp hmem with h1 | h1
      · exact h c (by simp) x h1
      · exact ih (fun d hd => h d (by simp [hd])) x h1

def thetaStr : Option ℚ → Str
  | some t => ' ' :: '#' :: toFixedSix t
  | none => []

theorem thetaStr_goodChar {th : Option ℚ}
    (hth : ∀ t ∈ th, 0 ≤ t ∧ ExactSix t) :
    ∀ c ∈ thetaStr th, GoodChar c := by
  intro c hc
  cases th with
  | none => cases hc
  | some v =>
    rcases List.mem_cons.mp hc with rfl | h3
    · exact ⟨by decide, by decide⟩
    · rcases List.mem_cons.mp h3 with rfl | h4
      · exact ⟨by decide, by decide⟩
      · exact toFixedSix_goodChar v (hth v rfl).1 (hth v rfl).2 c h4

theorem blStr_goodChar {bl : ℚ} (hbl0 : 0 ≤ bl) (hbl6 : ExactSix bl) :
    ∀ c ∈ (if 0 < bl then ':' :: toFixedSix bl else []), GoodChar c := by
  intro c hc
  by_cases hbp : 0 < bl
  · rw [if_pos hbp] at hc
    rcases List.mem_cons.mp hc with rfl | h3
    · exact ⟨by decide, by decide⟩
    · exact toFixedSix_goodChar bl hbl0 hbl6 c h3
  · rw [if_neg hbp] at hc
    cases hc

theorem toNewick_leaf_eq (name : Str) (bl : ℚ) (th : Option ℚ) :
    toNewick (.node name bl th [])
      = name ++ thetaStr th
        ++ (if 0 < bl then ':' :: toFixedSix bl else []) := rfl

theorem toNewick_cons_eq (name : Str) (bl : ℚ) (th : Option ℚ)
    (c : TreeNode) (cs : List TreeNode) :
    toNewick (.node name bl th (c :: cs))
      = ('(' :: (toNewick c ++ kidsNewick cs) ++ [')'])
        ++ name
        ++ thetaStr th
        ++ (if 0 < bl then ':' :: toFixedSix bl else []) := rfl

theorem toNewick_goodChar (t : TreeNode) (h : ValidTree t) :
    ∀ c ∈ toNewick t, GoodChar c := by
  induction t using treeNodeRec with
  | h name bl th cs ih =>
    intro c hc
    rw [ValidTree] at h
    obtain ⟨hname, hleaf, hbl0, hbl6, hth, hkids⟩ := h
    cases cs with
    | nil =>
      rw [toNewick_leaf_eq] at hc
      rcases List.mem_append.mp hc with h1 | h1
      · rcases List.mem_append.mp h1 with h2 | h2
        · exact validName_goodChar hname c h2
        · exact thetaStr_goodChar hth c h2
      · exact blStr_goodChar hbl0 hbl6 c h1
    | cons c0 cs2 =>
      rw [toNewick_cons_eq] at hc
      rcases List.mem_append.mp hc with h1 | h1
      · rcases List.mem_append.mp h1 with h2 | h2
        · rcases List.mem_append.mp h2 with h3 | h3
          · rcases List.mem_cons.mp h3 with rfl | h4
            · exact ⟨by decide, by decide⟩
            · rcases List.mem_append.mp h4 with h5 | h5
              · rcases List.mem_append.mp h5 with h6 | h6
                · exact ih c0 (by simp) (validKids_mem hkids (by simp)) c h6
                · exact kidsNewick_chars_of cs2
                    (fun d hd x hx => ih d (by simp [hd])
                      (validKids_mem hkids (by simp [hd])) x hx) c h6
              · simp only [List.mem_singleton] at h5
                subst h5
                exact ⟨by decide, by decide⟩
          · exact validName_goodChar hname c h3
        · exact thetaStr_goodChar hth c h2
      · exact blStr_goodChar hbl0 hbl6 c h1


theorem RestOK_head {rest : Str} (h : RestOK rest) :
    ∀ c, rest.head? = some c → c = ',' ∨ c = ')' := by
  intro c hc
  rcases h with rfl | h | h
  · cases hc
  · rw [h] at hc; cases hc; exact Or.inl rfl
  · rw [h] at hc; cases hc; exact Or.inr rfl

theorem head?_mem {α} {l : List α} {a : α} (h : l.head? = some a) : a ∈ l := by
  cases l with
  | nil => cases h
  | cons b l => cases h; simp

theorem getLast?_mem {α} {l : List α} {a : α} (h : l.getLast? = some a) :
    a ∈ l := by
  induction l with
  | nil => cases h
  | cons b l ih =>
    cases l with
    | nil =>
      cases h
      simp
    | cons c r =>
      rw [List.getLast?_cons_cons] at h
      simp [ih h]

theorem head?_append_left {α} {A : List α} (B : List α) {a : α}
    (h : A.head? = some a) : (A ++ B).head? = some a := by
  cases A with
  | nil => cases h
  | cons c r => cases h; rfl

theorem skipWs_of_head {s : Str}
    (h : ∀ c, s.head? = some c → isWsChar c = false) : skipWs s = s := by
  cases s with
  | nil => rfl
  | cons c r => exact skipWs_cons_of_neg (h c rfl)

theorem digit_not_valStop {c : Char} (h : c.isDigit = true) :
    isValStop c = false := by
  rw [isValStop]
  have h1 : (c == ',') = false := by
    cases hx : c == ',' with
    | false => rfl
    | true => rw [show c = ',' from beq_iff_eq.mp hx] at h; simp [Char.isDigit] at h
  have h2 : (c == ':') = false := by
    cases hx : c == ':' with
    | false => rfl
    | true => rw [show c = ':' from beq_iff_eq.mp hx] at h; simp [Char.isDigit] at h
  have h3 : (c == '(') = false := by
    cases hx : c == '(' with
    | false => rfl
    | true => rw [show c = '(' from beq_iff_eq.mp hx] at h; simp [Char.isDigit] at h
  have h4 : (c == ')') = false := by
    cases hx : c == ')' with
    | false => rfl
    | true => rw [show c = ')' from beq_iff_eq.mp hx] at h; simp [Char.isDigit] at h
  have h5 : (c == ';') = false := by
    cases hx : c == ';' with
    | false => rfl
    | true => rw [show c = ';' from beq_iff_eq.mp hx] at h; simp [Char.isDigit] at h
  rw [h1, h2, h3, h4, h5]
  rfl

theorem toFixedSix_not_valStop (q : ℚ) (hq : 0 ≤ q) (hd : ExactSix q) :
    ∀ c ∈ toFixedSix q, isValStop c = false := by
  intro c hc
  rcases toFixedSix_chars q hq hd c hc with h1 | rfl
  · exact digit_not_valStop h1
  · decide

theorem toFixedSix_not_ws (q : ℚ) (hq : 0 ≤ q) (hd : ExactSix q) :
    ∀ c ∈ toFixedSix q, isWsChar c = false := by
  intro c hc
  rcases toFixedSix_chars q hq hd c hc with h1 | rfl
  · exact isDigit_not_ws h1
  · decide

theorem trimChars_toFixedSix (q : ℚ) (hq : 0 ≤ q) (hd : ExactSix q) :
    trimChars (toFixedSix q) = toFixedSix q := by
  apply trimChars_eq_self_of
  · intro c hc
    exact toFixedSix_not_ws q hq hd c (head?_mem hc)
  · intro c hc
    exact toFixedSix_not_ws q hq hd c (getLast?_mem hc)

theorem takeWhile_append_of_stops {p : Char → Bool} {A C : Str}
    (hA : ∀ c ∈ A, p c = true)
    (hC : ∀ c, C.head? = some c → p c = false) :
    (A ++ C).takeWhile p = A := by
  cases C with
  | nil => rw [List.append_nil]; exact takeWhile_eq_self_of_all hA
  | cons b C2 => exact takeWhile_append_stop hA (hC b rfl)

/-- The branch-length suffix followed by the rest starts with a value
stop (or is empty). -/
theorem blIf_rest_head_valStop (bl : ℚ) (rest : Str) (hrest : RestOK rest) :
    ∀ c, ((if 0 < bl then ':' :: toFixedSix bl else []) ++ rest).head? = some c →
      isValStop c = true := by
  intro c hc
  by_cases hb : 0 < bl
  · rw [if_pos hb] at hc
    cases hc
    decide
  · rw [if_neg hb] at hc
    simp only [List.nil_append] at hc
    rcases RestOK_head hrest c hc with rfl | rfl <;> decide

/-- The theta-marker stage of `finishNode`, factored as its own
function (definitionally the middle `match` of the source loop). -/
def thetaStage (s2 : Str) : Option ℚ × Str :=
  match s2 with
  | '#' :: r =>
      let run := r.takeWhile (fun c => !isValStop c)
      (jsParseFloat (trimChars run), r.drop run.length)
  | _ => (none, s2)

/-- The branch-length stage of `finishNode`, factored as its own
function (definitionally the final `match` of the source loop). -/
def blStage (s3 : Str) : ℚ × Str :=
  match s3 with
  | ':' :: r =>
      let run := r.takeWhile (fun c => !isValStop c)
      ((jsParseFloat (trimChars run)).getD 0, r.drop run.length)
  | _ => (0, s3)

theorem finishNode_stages (cs : List TreeNode) (s : Str) :
    finishNode cs s =
      (TreeNode.node
        (trimChars ((skipWs s).takeWhile (fun c => !isNameStop c)))
        (blStage (skipWs (thetaStage (skipWs ((skipWs s).drop
          ((skipWs s).takeWhile (fun c => !isNameStop c)).length))).2)).1
        (thetaStage (skipWs ((skipWs s).drop
          ((skipWs s).takeWhile (fun c => !isNameStop c)).length))).1
        cs,
       (blStage (skipWs (thetaStage (skipWs ((skipWs s).drop
          ((skipWs s).takeWhile (fun c => !isNameStop c)).length))).2)).2) := rfl

theorem thetaStage_some (v : ℚ) (hv0 : 0 ≤ v) (hv6 : ExactSix v) (C : Str)
    (hC : ∀ c, C.head? = some c → isValStop c = true) :
    thetaStage ('#' :: (toFixedSix v ++ C)) = (some v, C) := by
  rw [show thetaStage ('#' :: (toFixedSix v ++ C))
      = (jsParseFloat (trimChars
          ((toFixedSix v ++ C).takeWhile (fun c => !isValStop c))),
        (toFixedSix v ++ C).drop
          ((toFixedSix v ++ C).takeWhile (fun c => !isValStop c)).length)
    from rfl]
  rw [takeWhile_append_of_stops
    (fun c hc => by rw [toFixedSix_not_valStop v hv0 hv6 c hc]; rfl)
    (fun c hc => by rw [hC c hc]; rfl)]
  rw [List.drop_left, trimChars_toFixedSix v hv0 hv6,
    jsParseFloat_toFixedSix v hv0 hv6]

theorem thetaStage_not_hash (s2 : Str)
    (h : ∀ c, s2.head? = some c → c ≠ '#') : thetaStage s2 = (none, s2) := by
  unfold thetaStage
  split
  next r => exact absurd rfl (h '#' rfl)
  next => rfl

theorem blStage_pos (bl : ℚ) (hbl0 : 0 ≤ bl) (hbl6 : ExactSix bl) (C : Str)
    (hC : ∀ c, C.head? = some c → isValStop c = true) :
    blStage (':' :: (toFixedSix bl ++ C)) = (bl, C) := by
  rw [show blStage (':' :: (toFixedSix bl ++ C))
      = ((jsParseFloat (trimChars
          ((toFixedSix bl ++ C).takeWhile (fun c => !isValStop c)))).getD 0,
        (toFixedSix bl ++ C).drop
          ((toFixedSix bl ++ C).takeWhile (fun c => !isValStop c)).length)
    from rfl]
  rw [takeWhile_append_of_stops
    (fun c hc => by rw [toFixedSix_not_valStop bl hbl0 hbl6 c hc]; rfl)
    (fun c hc => by rw [hC c hc]; rfl)]
  rw [List.drop_left, trimChars_toFixedSix bl hbl0 hbl6,
    jsParseFloat_toFixedSix bl hbl0 hbl6]
  rfl

theorem blStage_not_colon (s3 : Str)
    (h : ∀ c, s3.head? = some c → c ≠ ':') : blStage s3 = (0, s3) := by
  unfold blStage
  split
  next r => exact absurd rfl (h ':' rfl)
  next => rfl

theorem blStage_of_print (bl : ℚ) (rest : Str) (hbl0 : 0 ≤ bl)
    (hbl6 : ExactSix bl) (hrest : RestOK rest) :
    blStage (skipWs ((if 0 < bl then ':' :: toFixedSix bl else []) ++ rest))
      = (bl, rest) := by
  by_cases hb : 0 < bl
  · rw [if_pos hb, List.cons_append, skipWs_cons_of_neg (by decide)]
    exact blStage_pos bl hbl0 hbl6 rest
      (fun c hc => by rcases RestOK_head hrest c hc with rfl | rfl <;> decide)
  · rw [if_neg hb, List.nil_append,
      skipWs_of_head (fun c hc => by rcases RestOK_head hrest c hc with rfl | rfl <;> decide)]
    rw [blStage_not_colon rest
      (fun c hc => by rcases RestOK_head hrest c hc with rfl | rfl <;> decide)]
    rw [le_antisymm (not_lt.mp hb) hbl0]

theorem thetaStage_of_print (th : Option ℚ) (bl : ℚ) (rest : Str)
    (hth : ∀ v ∈ th, 0 ≤ v ∧ ExactSix v) (hrest : RestOK rest) :
    thetaStage (skipWs (thetaStr th
        ++ ((if 0 < bl then ':' :: toFixedSix bl else []) ++ rest)))
      = (th, (if 0 < bl then ':' :: toFixedSix bl else []) ++ rest) := by
  cases th with
  | none =>
    rw [show thetaStr none = [] from rfl, List.nil_append]
    rw [skipWs_of_head (fun c hc => by
      by_cases hb : 0 < bl
      · rw [if_pos hb] at hc
        cases hc
        decide
      · rw [if_neg hb, List.nil_append] at hc
        rcases RestOK_head hrest c hc with rfl | rfl <;> decide)]
    exact thetaStage_not_hash _ (fun c hc => by
      by_cases hb : 0 < bl
      · rw [if_pos hb] at hc
        cases hc
        decide
      · rw [if_neg hb, List.nil_append] at hc
        rcases RestOK_head hrest c hc with rfl | rfl <;> decide)
  | some v =>
    rw [show thetaStr (some v)
        ++ ((if 0 < bl then ':' :: toFixedSix bl else []) ++ rest)
      = ' ' :: '#' :: (toFixedSix v
        ++ ((if 0 < bl then ':' :: toFixedSix bl else []) ++ rest)) from rfl]
    rw [show skipWs (' ' :: '#' :: (toFixedSix v
        ++ ((if 0 < bl then ':' :: toFixedSix bl else []) ++ rest)))
      = '#' :: (toFixedSix v
        ++ ((if 0 < bl then ':' :: toFixedSix bl else []) ++ rest)) from by
      rw [skipWs, List.dropWhile_cons, if_pos (by decide)]
      exact dropWhile_cons_of_neg (by decide)]
    exact thetaStage_some v (hth v rfl).1 (hth v rfl).2 _
      (blIf_rest_head_valStop bl rest hrest)

theorem takeWhile_nil_of_head {p : Char → Bool} {C : Str}
    (hC : ∀ c, C.head? = some c → p c = false) : C.takeWhile p = [] := by
  cases C with
  | nil => rfl
  | cons b C2 =>
    rw [List.takeWhile_cons, hC b rfl]
    rfl

theorem blIf_rest_head_nameStop (bl : ℚ) (rest : Str) (hrest : RestOK rest) :
    ∀ c, ((if 0 < bl then ':' :: toFixedSix bl else []) ++ rest).head? = some c →
      isNameStop c = true := by
  intro c hc
  by_cases hb : 0 < bl
  · rw [if_pos hb] at hc
    cases hc
    decide
  · rw [if_neg hb] at hc
    simp only [List.nil_append] at hc
    rcases RestOK_head hrest c hc with rfl | rfl <;> decide

theorem blIf_rest_head_not_ws (bl : ℚ) (rest : Str) (hrest : RestOK rest) :
    ∀ c, ((if 0 < bl then ':' :: toFixedSix bl else []) ++ rest).head? = some c →
      isWsChar c = false := by
  intro c hc
  by_cases hb : 0 < bl
  · rw [if_pos hb] at hc
    cases hc
    decide
  · rw [if_neg hb] at hc
    simp only [List.nil_append] at hc
    rcases RestOK_head hrest c hc with rfl | rfl <;> decide

theorem nameStage_of_print (name : Str) (th : Option ℚ) (bl : ℚ) (rest : Str)
    (hname : ValidName name) (hrest : RestOK rest) :
    trimChars ((skipWs (name ++ (thetaStr th
        ++ ((if 0 < bl then ':' :: toFixedSix bl else []) ++ rest)))).takeWhile
      (fun c => !isNameStop c)) = name
  ∧ skipWs ((skipWs (name ++ (thetaStr th
        ++ ((if 0 < bl then ':' :: toFixedSix bl else []) ++ rest)))).drop
      ((skipWs (name ++ (thetaStr th
        ++ ((if 0 < bl then ':' :: toFixedSix bl else []) ++ rest)))).takeWhile
        (fun c => !isNameStop c)).length)
    = skipWs (thetaStr th
        ++ ((if 0 < bl then ':' :: toFixedSix bl else []) ++ rest)) := by
  cases name with
  | nil =>
    simp only [List.nil_append]
    cases th with
    | none =>
      rw [show thetaStr none = [] from rfl, List.nil_append]
      have hs : skipWs ((if 0 < bl then ':' :: toFixedSix bl else []) ++ rest)
          = (if 0 < bl then ':' :: toFixedSix bl else []) ++ rest :=
        skipWs_of_head (blIf_rest_head_not_ws bl rest hrest)
      rw [hs]
      rw [takeWhile_nil_of_head (fun c hc => by
        rw [blIf_rest_head_nameStop bl rest hrest c hc]; rfl)]
      rw [List.length_nil, List.drop_zero]
      exact ⟨rfl, hs⟩
    | some v =>
      rw [show thetaStr (some v)
          ++ ((if 0 < bl then ':' :: toFixedSix bl else []) ++ rest)
        = ' ' :: '#' :: (toFixedSix v
          ++ ((if 0 < bl then ':' :: toFixedSix bl else []) ++ rest)) from rfl]
      rw [show skipWs (' ' :: '#' :: (toFixedSix v
          ++ ((if 0 < bl then ':' :: toFixedSix bl else []) ++ rest)))
        = '#' :: (toFixedSix v
          ++ ((if 0 < bl then ':' :: toFixedSix bl else []) ++ rest)) from by
        rw [skipWs, List.dropWhile_cons, if_pos (by decide)]
        exact dropWhile_cons_of_neg (by decide)]
      rw [takeWhile_nil_of_head (fun c hc => by cases hc; rfl)]
      rw [List.length_nil, List.drop_zero]
      exact ⟨rfl, skipWs_of_head (fun c hc => by cases hc; rfl)⟩
  | cons c0 r =>
    have hc0 : isWsChar c0 = false := head_not_ws_of_trimmed hname.2
    have hA : ∀ c ∈ c0 :: r, (!isNameStop c) = true := by
      intro c hc
      rw [(hname.1 c hc).1]
      rfl
    rw [show (c0 :: r) ++ (thetaStr th
        ++ ((if 0 < bl then ':' :: toFixedSix bl else []) ++ rest))
      = c0 :: (r ++ (thetaStr th
        ++ ((if 0 < bl then ':' :: toFixedSix bl else []) ++ rest)))
      from List.cons_append c0 r _]
    rw [skipWs_cons_of_neg hc0]
    rw [show c0 :: (r ++ (thetaStr th
        ++ ((if 0 < bl then ':' :: toFixedSix bl else []) ++ rest)))
      = (c0 :: r) ++ (thetaStr th
        ++ ((if 0 < bl then ':' :: toFixedSix bl else []) ++ rest))
      from (List.cons_append c0 r _).symm]
    cases th with
    | none =>
      rw [show thetaStr none = [] from rfl, List.nil_append]
      rw [takeWhile_append_of_stops hA (fun c hc => by
        rw [blIf_rest_head_nameStop bl rest hrest c hc]; rfl)]
      refine ⟨hname.2, ?_⟩
      rw [List.drop_left]
    | some v =>
      rw [show (c0 :: r) ++ (thetaStr (some v)
          ++ ((if 0 < bl then ':' :: toFixedSix bl else []) ++ rest))
        = ((c0 :: r) ++ [' ']) ++ ('#' :: (toFixedSix v
          ++ ((if 0 < bl then ':' :: toFixedSix bl else []) ++ rest)))
        from by
          rw [show thetaStr (some v) = ' ' :: '#' :: toFixedSix v from rfl]
          simp]
      rw [takeWhile_append_of_stops (p := fun c => !isNameStop c)
        (fun c hc => by
          rcases List.mem_append.mp hc with h1 | h1
          · exact hA c h1
          · rw [List.mem_singleton] at h1
            subst h1
            rfl)
        (fun c hc => by cases hc; rfl)]
      refine ⟨by rw [trimChars_append_space, hname.2], ?_⟩
      rw [List.drop_left]
      rw [skipWs_of_head (fun c hc => by cases hc; rfl)]
      rw [show thetaStr (some v)
          ++ ((if 0 < bl then ':' :: toFixedSix bl else []) ++ rest)
        = ' ' :: '#' :: (toFixedSix v
          ++ ((if 0 < bl then ':' :: toFixedSix bl else []) ++ rest)) from rfl]
      rw [show skipWs (' ' :: '#' :: (toFixedSix v
          ++ ((if 0 < bl then ':' :: toFixedSix bl else []) ++ rest)))
        = '#' :: (toFixedSix v
          ++ ((if 0 < bl then ':' :: toFixedSix bl else []) ++ rest)) from by
        rw [skipWs, List.dropWhile_cons, if_pos (by decide)]
        exact dropWhile_cons_of_neg (by decide)]

/-- `finishNode` applied to the printed name, theta and branch-length
suffix of a valid node followed by well-formed rest reads back exactly
the node's fields and leaves the rest. -/
theorem finishNode_print (cs : List TreeNode) (name : Str) (bl : ℚ)
    (th : Option ℚ) (rest : Str) (hname : ValidName name) (hbl0 : 0 ≤ bl)
    (hbl6 : ExactSix bl) (hth : ∀ v ∈ th, 0 ≤ v ∧ ExactSix v)
    (hrest : RestOK rest) :
    finishNode cs (name ++ (thetaStr th
        ++ ((if 0 < bl then ':' :: toFixedSix bl else []) ++ rest)))
      = (.node name bl th cs, rest) := by
  obtain ⟨hn1, hn2⟩ := nameStage_of_print name th bl rest hname hrest
  rw [finishNode_stages, hn1, hn2,
    thetaStage_of_print th bl rest hth hrest]
  rw [show ((th, (if 0 < bl then ':' :: toFixedSix bl else []) ++ rest)).2
    = (if 0 < bl then ':' :: toFixedSix bl else []) ++ rest from rfl]
  rw [blStage_of_print bl rest hbl0 hbl6 hrest]


theorem parseNodeF_succ_paren (fuel : ℕ) (s rest : Str)
    (h : skipWs s = '(' :: rest) :
    parseNodeF (fuel + 1) s =
      match childrenF fuel rest [] with
      | none => none
      | some (cs, s1) => some (finishNode cs s1) := by
  rw [show parseNodeF (fuel + 1) s =
      (match skipWs s with
       | '(' :: rest =>
           match childrenF fuel rest [] with
           | none => none
           | some (cs, s1) => some (finishNode cs s1)
       | s1 => some (finishNode [] s1)) from rfl]
  rw [h]
  rfl

theorem parseNodeF_succ_noparen (fuel : ℕ) (s : Str)
    (hh : ∀ r, skipWs s ≠ '(' :: r) :
    parseNodeF (fuel + 1) s = some (finishNode [] (skipWs s)) := by
  rw [show parseNodeF (fuel + 1) s =
      (match skipWs s with
       | '(' :: rest =>
           match childrenF fuel rest [] with
           | none => none
           | some (cs, s1) => some (finishNode cs s1)
       | s1 => some (finishNode [] s1)) from rfl]
  split
  next r heq => exact absurd heq (hh r)
  next => rfl

theorem childrenF_succ_of (fuel : ℕ) (s : Str) (acc : List TreeNode)
    (child : TreeNode) (s1 : Str)
    (h : parseNodeF fuel s = some (child, s1)) :
    childrenF (fuel + 1) s acc =
      match skipWs s1 with
      | [] => some (acc ++ [child], [])
      | ',' :: rest => childrenF fuel rest (acc ++ [child])
      | ')' :: rest => some (acc ++ [child], rest)
      | other => childrenF fuel other (acc ++ [child]) := by
  rw [show childrenF (fuel + 1) s acc =
      (match parseNodeF fuel s with
       | none => none
       | some (child, s1) =>
         match skipWs s1 with
         | [] => some (acc ++ [child], [])
         | ',' :: rest => childrenF fuel rest (acc ++ [child])
         | ')' :: rest => some (acc ++ [child], rest)
         | other => childrenF fuel other (acc ++ [child])) from rfl]
  rw [h]

/-- The child rest of a printed sibling list is well formed: it starts
with `,` (more siblings) or `)` (siblings done). -/
theorem restOK_kids (cs : List TreeNode) (tail : Str) :
    RestOK (kidsNewick cs ++ (')' :: tail)) := by
  cases cs with
  | nil =>
    rw [show kidsNewick [] = [] from rfl, List.nil_append]
    exact Or.inr (Or.inr rfl)
  | cons c cs2 =>
    rw [show kidsNewick (c :: cs2) = ',' :: (toNewick c ++ kidsNewick cs2)
      from rfl]
    exact Or.inr (Or.inl rfl)

/-- Core round-trip induction: with enough fuel, `parseNode` consumes
exactly the printed form of a valid tree and returns that tree, and the
child loop consumes a printed sibling list up to and including the
closing parenthesis. -/
theorem parse_print (fuel : ℕ) :
    (∀ t rest, ValidTree t → fuelNode t ≤ fuel → RestOK rest →
      parseNodeF fuel (toNewick t ++ rest) = some (t, rest))
  ∧ (∀ c cs acc tail, ValidTree c → ValidKids cs →
      fuelKids (c :: cs) ≤ fuel →
      childrenF fuel ((toNewick c ++ kidsNewick cs) ++ (')' :: tail)) acc
        = some (acc ++ c :: cs, tail)) := by
  induction fuel with
  | zero =>
    constructor
    · intro t rest hv hf hrest
      exfalso
      cases t with
      | node n b th cs =>
        have h1 : fuelNode (.node n b th cs) = 1 + fuelKids cs := rfl
        omega
    · intro c cs acc tail hc hcs hf
      exfalso
      have h1 : fuelKids (c :: cs) = 1 + max (fuelNode c) (fuelKids cs) := rfl
      omega
  | succ fuel ih =>
    constructor
    · intro t rest hv hf hrest
      cases t with
      | node n b th cs =>
        obtain ⟨hname, hleaf, hbl0, hbl6, hth, hkids⟩ := hv
        cases cs with
        | nil =>
          obtain ⟨c0, r, rfl⟩ : ∃ c0 r, n = c0 :: r := by
            cases n with
            | nil => exact absurd rfl (hleaf rfl)
            | cons c0 r => exact ⟨c0, r, rfl⟩
          have hc0ns : isNameStop c0 = false := (hname.1 c0 (by simp)).1
          have hc0ws : isWsChar c0 = false := head_not_ws_of_trimmed hname.2
          have hin : toNewick (.node (c0 :: r) b th []) ++ rest
              = (c0 :: r) ++ (thetaStr th
                ++ ((if 0 < b then ':' :: toFixedSix b else []) ++ rest)) := by
            rw [toNewick_leaf_eq]
            simp [List.append_assoc]
          rw [hin]
          have hsk : skipWs ((c0 :: r) ++ (thetaStr th
              ++ ((if 0 < b then ':' :: toFixedSix b else []) ++ rest)))
              = (c0 :: r) ++ (thetaStr th
              ++ ((if 0 < b then ':' :: toFixedSix b else []) ++ rest)) := by
            rw [List.cons_append]
            exact skipWs_cons_of_neg hc0ws
          rw [parseNodeF_succ_noparen fuel _ (by
            rw [hsk]
            intro x hx
            rw [List.cons_append] at hx
            have : c0 = '(' := by
              have := congrArg List.head? hx
              simpa using this
            rw [this] at hc0ns
            exact absurd hc0ns (by decide))]
          rw [hsk]
          rw [finishNode_print [] (c0 :: r) b th rest hname hbl0 hbl6 hth hrest]
        | cons c1 cs2 =>
          have hin : toNewick (.node n b th (c1 :: cs2)) ++ rest
              = '(' :: ((toNewick c1 ++ kidsNewick cs2)
                ++ (')' :: (n ++ (thetaStr th
                  ++ ((if 0 < b then ':' :: toFixedSix b else []) ++ rest))))) := by
            rw [toNewick_cons_eq]
            simp [List.append_assoc]
          rw [hin]
          rw [parseNodeF_succ_paren fuel _ _ (skipWs_cons_of_neg (by decide))]
          have hfk : fuelKids (c1 :: cs2) ≤ fuel := by
            have h1 : fuelNode (.node n b th (c1 :: cs2))
                = 1 + fuelKids (c1 :: cs2) := rfl
            omega
          rw [ih.2 c1 cs2 [] (n ++ (thetaStr th
              ++ ((if 0 < b then ':' :: toFixedSix b else []) ++ rest)))
            hkids.1 hkids.2 hfk]
          rw [List.nil_append]
          rw [show (match (some (c1 :: cs2, n ++ (thetaStr th
              ++ ((if 0 < b then ':' :: toFixedSix b else []) ++ rest)))
                : Option (List TreeNode × Str)) with
            | none => none
            | some (cs, s1) => some (finishNode cs s1))
            = some (finishNode (c1 :: cs2) (n ++ (thetaStr th
              ++ ((if 0 < b then ':' :: toFixedSix b else []) ++ rest))))
            from rfl]
          rw [finishNode_print (c1 :: cs2) n b th rest hname hbl0 hbl6 hth hrest]
    · intro c cs acc tail hc hcs hf
      have hfc : fuelNode c ≤ fuel := by
        have h1 : fuelKids (c :: cs) = 1 + max (fuelNode c) (fuelKids cs) := rfl
        have h2 := le_max_left (fuelNode c) (fuelKids cs)
        omega
      have harg : (toNewick c ++ kidsNewick cs) ++ (')' :: tail)
          = toNewick c ++ (kidsNewick cs ++ (')' :: tail)) :=
        List.append_assoc _ _ _
      rw [harg]
      rw [childrenF_succ_of fuel _ acc c (kidsNewick cs ++ (')' :: tail))
        (ih.1 c (kidsNewick cs ++ (')' :: tail)) hc hfc (restOK_kids cs tail))]
      cases cs with
      | nil =>
        rw [show kidsNewick [] = [] from rfl, List.nil_append]
        rw [skipWs_cons_of_neg (by decide)]
        rfl
      | cons c2 cs3 =>
        rw [show kidsNewick (c2 :: cs3)
            = ',' :: (toNewick c2 ++ kidsNewick cs3) from rfl]
        rw [List.cons_append, skipWs_cons_of_neg (by decide)]
        have hfk2 : fuelKids (c2 :: cs3) ≤ fuel := by
          have h1 : fuelKids (c :: c2 :: cs3)
              = 1 + max (fuelNode c) (fuelKids (c2 :: cs3)) := rfl
          have h2 := le_max_right (fuelNode c) (fuelKids (c2 :: cs3))
          omega
        exact (ih.2 c2 cs3 (acc ++ [c]) tail hcs.1 hcs.2 hfk2).trans
          (by simp)

theorem exists_getLast? {α} {l : List α} (h : l ≠ []) :
    ∃ c, l.getLast? = some c := by
  induction l with
  | nil => exact absurd rfl h
  | cons a l ih =>
    cases l with
    | nil => exact ⟨a, rfl⟩
    | cons b r =>
      obtain ⟨c, hc⟩ := ih (by simp)
      exact ⟨c, by rw [List.getLast?_cons_cons]; exact hc⟩

theorem getLast?_cons_of_ne_nil {α} {l : List α} (a : α) (h : l ≠ []) :
    (a :: l).getLast? = l.getLast? := by
  cases l with
  | nil => exact absurd rfl h
  | cons b r => exact List.getLast?_cons_cons

theorem getLast?_append_right {α} {A B : List α} {c : α}
    (h : B.getLast? = some c) : (A ++ B).getLast? = some c := by
  rw [List.getLast?_append, h]
  rfl

theorem fixedSixOfNat_ne_nil (m : ℕ) : fixedSixOfNat m ≠ [] := by
  rw [fixedSixOfNat]
  simp

theorem toFixedSix_ne_nil (q : ℚ) : toFixedSix q ≠ [] := by
  rw [show toFixedSix q = if (⌊q * 1000000 + 1/2⌋ : ℤ) < 0
      then '-' :: fixedSixOfNat (⌊q * 1000000 + 1/2⌋ : ℤ).natAbs
      else fixedSixOfNat (⌊q * 1000000 + 1/2⌋ : ℤ).toNat from rfl]
  by_cases hn : (⌊q * 1000000 + 1/2⌋ : ℤ) < 0
  · rw [if_pos hn]
    simp
  · rw [if_neg hn]
    exact fixedSixOfNat_ne_nil _

theorem last_not_ws_of_trimmed {s : Str} (h : trimChars s = s) :
    ∀ c, s.getLast? = some c → isWsChar c = false := by
  intro c hc
  by_contra hw
  have hw2 : isWsChar c = true := by
    cases hx : isWsChar c with
    | false => exact absurd hx hw
    | true => rfl
  by_cases hd : s.dropWhile isWsChar = []
  · have h0 : trimChars s = [] := by
      rw [trimChars, hd]
      rfl
    rw [h] at h0
    rw [h0] at hc
    cases hc
  · have h1 : s.getLast? = (s.dropWhile isWsChar).getLast? := by
      conv_lhs => rw [← List.takeWhile_append_dropWhile (p := isWsChar) (l := s)]
      obtain ⟨c', hc'⟩ := exists_getLast? hd
      rw [getLast?_append_right hc', hc']
    rw [h1] at hc
    have h2 : (s.dropWhile isWsChar).reverse.head? = some c := by
      rw [List.head?_reverse]
      exact hc
    obtain ⟨rest, h3⟩ : ∃ rest, (s.dropWhile isWsChar).reverse = c :: rest := by
      cases hrv : (s.dropWhile isWsChar).reverse with
      | nil => rw [hrv] at h2; cases h2
      | cons x r =>
        rw [hrv] at h2
        cases h2
        exact ⟨r, rfl⟩
    have h4 : (trimChars s).length ≤ rest.length := by
      rw [trimChars, List.length_reverse, h3, List.dropWhile_cons, if_pos hw2]
      exact dropWhile_length_le _ _
    have h5 : rest.length + 1 = (s.dropWhile isWsChar).length := by
      have := congrArg List.length h3
      rw [List.length_reverse] at this
      simp at this
      omega
    have h6 : (s.dropWhile isWsChar).length ≤ s.length := dropWhile_length_le _ _
    rw [h] at h4
    omega

/-- The printed theta and branch-length suffix keeps a non-whitespace
last character when the part before it ends in one. -/
theorem print_tail_last_not_ws (Y : Str) (b : ℚ) (th : Option ℚ)
    (hbl0 : 0 ≤ b) (hbl6 : ExactSix b)
    (hth : ∀ v ∈ th, 0 ≤ v ∧ ExactSix v)
    (hY : ∀ c, Y.getLast? = some c → isWsChar c = false) :
    ∀ c, (((Y ++ thetaStr th)
        ++ (if 0 < b then ':' :: toFixedSix b else [])).getLast? = some c) →
      isWsChar c = false := by
  intro c hc
  by_cases hb : 0 < b
  · rw [if_pos hb] at hc
    obtain ⟨c', hl⟩ := exists_getLast? (toFixedSix_ne_nil b)
    rw [getLast?_append_right (by
      rw [getLast?_cons_of_ne_nil ':' (toFixedSix_ne_nil b)]
      exact hl)] at hc
    cases hc
    exact toFixedSix_not_ws b hbl0 hbl6 c (getLast?_mem hl)
  · rw [if_neg hb, List.append_nil] at hc
    cases th with
    | some v =>
      rw [show thetaStr (some v) = ' ' :: '#' :: toFixedSix v from rfl] at hc
      obtain ⟨c', hl⟩ := exists_getLast? (toFixedSix_ne_nil v)
      rw [getLast?_append_right (by
        rw [getLast?_cons_of_ne_nil ' ' (by simp),
          getLast?_cons_of_ne_nil '#' (toFixedSix_ne_nil v)]
        exact hl)] at hc
      cases hc
      exact toFixedSix_not_ws v (hth v rfl).1 (hth v rfl).2 c (getLast?_mem hl)
    | none =>
      rw [show thetaStr none = [] from rfl, List.append_nil] at hc
      exact hY c hc

theorem toNewick_last_not_ws (t : TreeNode) (h : ValidTree t) :
    ∀ c, (toNewick t).getLast? = some c → isWsChar c = false := by
  cases t with
  | node n b th cs =>
    obtain ⟨hname, hleaf, hbl0, hbl6, hth, hkids⟩ := h
    cases cs with
    | nil =>
      rw [toNewick_leaf_eq]
      exact print_tail_last_not_ws n b th hbl0 hbl6 hth
        (last_not_ws_of_trimmed hname.2)
    | cons c1 cs2 =>
      rw [toNewick_cons_eq]
      refine print_tail_last_not_ws _ b th hbl0 hbl6 hth ?_
      intro c hc
      cases hn : n with
      | nil =>
        rw [hn, List.append_nil] at hc
        rw [show ('(' :: (toNewick c1 ++ kidsNewick cs2) ++ [')'])
            = ('(' :: (toNewick c1 ++ kidsNewick cs2)) ++ [')'] from rfl] at hc
        rw [List.getLast?_concat] at hc
        cases hc
        decide
      | cons n0 nr =>
        rw [hn] at hc
        obtain ⟨c', hl⟩ := exists_getLast? (l := n0 :: nr) (by simp)
        rw [getLast?_append_right hl] at hc
        cases hc
        rw [← hn] at hl
        exact last_not_ws_of_trimmed hname.2 c hl

theorem toNewick_head_not_ws (t : TreeNode) (h : ValidTree t) :
    ∀ c, (toNewick t).head? = some c → isWsChar c = false := by
  cases t with
  | node n b th cs =>
    obtain ⟨hname, hleaf, hbl0, hbl6, hth, hkids⟩ := h
    cases cs with
    | nil =>
      obtain ⟨c0, r, rfl⟩ : ∃ c0 r, n = c0 :: r := by
        cases n with
        | nil => exact absurd rfl (hleaf rfl)
        | cons c0 r => exact ⟨c0, r, rfl⟩
      intro c hc
      have hh : (toNewick (.node (c0 :: r) b th [])).head? = some c0 := by
        rw [toNewick_leaf_eq]
        rfl
      rw [hh] at hc
      cases hc
      exact head_not_ws_of_trimmed hname.2
    | cons c1 cs2 =>
      intro c hc
      have hh : (toNewick (.node n b th (c1 :: cs2))).head? = some '(' := by
        rw [toNewick_cons_eq]
        rfl
      rw [hh] at hc
      cases hc
      decide

theorem toNewick_ne_nil (t : TreeNode) (h : ValidTree t) : toNewick t ≠ [] := by
  cases t with
  | node n b th cs =>
    obtain ⟨hname, hleaf, hbl0, hbl6, hth, hkids⟩ := h
    cases cs with
    | nil =>
      obtain ⟨c0, r, rfl⟩ : ∃ c0 r, n = c0 :: r := by
        cases n with
        | nil => exact absurd rfl (hleaf rfl)
        | cons c0 r => exact ⟨c0, r, rfl⟩
      rw [toNewick_leaf_eq]
      simp
    | cons c1 cs2 =>
      rw [toNewick_cons_eq]
      simp

theorem toNewick_leaf_no_paren (n : Str) (b : ℚ) (th : Option ℚ)
    (h : ValidTree (.node n b th [])) :
    '(' ∉ toNewick (.node n b th []) := by
  obtain ⟨hname, hleaf, hbl0, hbl6, hth, _⟩ := h
  rw [toNewick_leaf_eq]
  intro hc
  rcases List.mem_append.mp hc with h1 | h1
  · rcases List.mem_append.mp h1 with h2 | h2
    · exact absurd (hname.1 '(' h2).1 (by decide)
    · cases th with
      | none => cases h2
      | some v =>
        rcases List.mem_cons.mp h2 with h3 | h3
        · exact absurd h3 (by decide)
        · rcases List.mem_cons.mp h3 with h4 | h4
          · exact absurd h4 (by decide)
          · rcases toFixedSix_chars v (hth v rfl).1 (hth v rfl).2 '(' h4 with h5 | h5
            · exact absurd h5 (by decide)
            · exact absurd h5 (by decide)
  · by_cases hb : 0 < b
    · rw [if_pos hb] at h1
      rcases List.mem_cons.mp h1 with h3 | h3
      · exact absurd h3 (by decide)
      · rcases toFixedSix_chars b hbl0 hbl6 '(' h3 with h5 | h5
        · exact absurd h5 (by decide)
        · exact absurd h5 (by decide)
    · rw [if_neg hb] at h1
      cases h1

theorem toNewick_no_semi (t : TreeNode) (h : ValidTree t) :
    ';' ∉ toNewick t :=
  fun hc => (toNewick_goodChar t h ';' hc).1 rfl

/-- The printed form of a valid tree passes the `cleanNewick` rewrites
unchanged. -/
theorem cleanNewick_toNewick (t : TreeNode) (h : ValidTree t) :
    cleanNewick (toNewick t) = toNewick t := by
  have harr : '→' ∉ toNewick t := fun hc => (toNewick_goodChar t h '→' hc).2 rfl
  rw [cleanNewick, stripArrow_id _ harr]
  have hnp : stripNumParen (toNewick t) = toNewick t := by
    cases t with
    | node n b th cs =>
      cases cs with
      | nil => exact stripNumParen_id_noparen _ (toNewick_leaf_no_paren n b th h)
      | cons c1 cs2 =>
        apply stripNumParen_id_paren
        rw [toNewick_cons_eq]
        rfl
  rw [hnp, stripTrailingCount_id _ (toNewick_no_semi t h)]
  exact trimChars_eq_self_of _ (toNewick_head_not_ws t h) (toNewick_last_not_ws t h)

theorem C4_core (t : TreeNode) (fuel : ℕ) (hv : ValidTree t)
    (hf : fuelNode t ≤ fuel) :
    parseNewickF fuel (toNewick t) = some (some t) := by
  have hcl := cleanNewick_toNewick t hv
  have hsemi := toNewick_no_semi t hv
  have h1 : (toNewick t).isEmpty = false := by
    cases hx : toNewick t with
    | nil => exact absurd hx (toNewick_ne_nil t hv)
    | cons a l => rfl
  have h2 : (toNewick t = [';']) = False := by
    simp only [eq_iff_iff, iff_false]
    intro he
    exact hsemi (by rw [he]; simp)
  have hp : parseNodeF fuel (toNewick t) = some (t, []) := by
    have := (parse_print fuel).1 t [] hv hf (Or.inl rfl)
    rw [List.append_nil] at this
    exact this
  have htr : trimChars (stripLastSemi (toNewick t)) = toNewick t := by
    rw [stripLastSemi_id _ hsemi]
    exact trimChars_eq_self_of _ (toNewick_head_not_ws t hv)
      (toNewick_last_not_ws t hv)
  simp only [parseNewickF, hcl, h1, h2, htr, hp, decide_False, Bool.or_false,
    Bool.false_eq_true, if_false]


/-- C1: for every built population-interval list, the containment query
returns none exactly when no interval qualifies (time inside the
inclusive window and species a superset of the query set), and
otherwise returns a qualifying interval of minimal species cardinality;
and for a tip taxon `x` of the species tree, querying `{x}` at time 0
returns the leaf interval whose species set is exactly `{x}` and whose
window starts at 0. -/
theorem C1_thm :
    (∀ (pops : List PopulationInfo) (S : Finset Str) (time : ℚ),
      (findPopulationForSpecies pops S time = none ↔
          ∀ p ∈ pops, ¬ popQualifies S time p) ∧
      (∀ p, findPopulationForSpecies pops S time = some p →
        p ∈ pops ∧ popQualifies S time p ∧
          ∀ q ∈ pops, popQualifies S time q → p.species.card ≤ q.species.card))
    ∧
    (∀ (t : TreeNode) (positions : Str → Option SpeciesPosition)
        (maxDepth rootY tipY yScale : ℚ) (x : Str),
      NonnegBL t →
      (∀ n ∈ getLeaves t, positions n ≠ none) → x ∈ getLeaves t →
      ∃ p, findPopulationForSpecies
          (renderPopulations t positions maxDepth rootY tipY yScale) {x} 0 = some p ∧
        p.species = {x} ∧ p.startTime = 0) := by
  constructor
  · intro pops S time
    constructor
    · rw [findPopulationForSpecies, findPopGo_none_iff]
      simp
    · intro p h
      rcases findPopGo_mem S time pops none p h with ⟨hm, hq⟩ | hcon
      · exact ⟨hm, hq, fun q hqm hqq => findPopGo_min S time pops none p q h hqm hqq⟩
      · cases hcon
  · intro t positions maxDepth rootY tipY yScale x hbl hpos hx
    obtain ⟨leafp, hlm, hlsp, hlst, hlen⟩ :=
      drawTubes_leaf_pop positions yScale tipY t
        (rootY - (maxDepth - getDepth t) * yScale) (getDepth t) hbl (le_refl _) hpos x hx
    have hlmem : leafp ∈ renderPopulations t positions maxDepth rootY tipY yScale := by
      rw [renderPopulations]
      exact List.mem_append_left _ hlm
    have hlq : popQualifies {x} 0 leafp := by
      refine ⟨le_of_eq hlst, hlen, ?_⟩
      rw [hlsp]
    have hnn : ∀ pop ∈ renderPopulations t positions maxDepth rootY tipY yScale,
        0 ≤ pop.startTime := by
      intro pop hpop
      rw [renderPopulations] at hpop
      rcases List.mem_append.mp hpop with h1 | h1
      · exact drawTubes_startTime_nonneg positions yScale tipY t _ _ hbl (le_refl _) pop h1
      · by_cases hc : rootY - (maxDepth - getDepth t) * yScale < rootY
        · rw [if_pos hc] at h1
          simp only [List.mem_singleton] at h1
          subst h1
          exact getDepth_nonneg t hbl
        · rw [if_neg hc] at h1; cases h1
    cases hfind : findPopulationForSpecies
        (renderPopulations t positions maxDepth rootY tipY yScale) {x} 0 with
    | none =>
      rw [findPopulationForSpecies, findPopGo_none_iff] at hfind
      exact absurd hlq (hfind.2 leafp hlmem)
    | some p =>
      rcases findPopGo_mem {x} 0 _ none p hfind with ⟨hm, hq⟩ | hcon
      · have hmin := findPopGo_min {x} 0 _ none p leafp hfind hlmem hlq
        have hcard : p.species.card ≤ 1 := by
          rw [hlsp] at hmin
          simpa using hmin
        have hsub : {x} ⊆ p.species := hq.2.2
        have heq : ({x} : Finset Str) = p.species :=
          Finset.eq_of_subset_of_card_le hsub (by simpa using hcard)
        refine ⟨p, rfl, heq.symm, le_antisymm hq.1 (hnn p hm)⟩
      · cases hcon

/-- Witness for C1 at a one-leaf species tree. -/
theorem C1_witness :
    NonnegBL (.node ['A'] 1 none []) ∧
    (∃ p, findPopulationForSpecies
        (renderPopulations (.node ['A'] 1 none [])
          (fun _ => some ⟨100, 40⟩) 2 550 50 250) {['A']} 0 = some p ∧
      p.species = {['A']} ∧ p.startTime = 0) :=
  ⟨⟨by norm_num, trivial⟩,
   C1_thm.2 (.node ['A'] 1 none []) (fun _ => some ⟨100, 40⟩) 2 550 50 250 ['A']
     ⟨by norm_num, trivial⟩ (fun n _ => by simp) (by simp [getLeaves])⟩

/-- C8: one construction pass builds one population interval per
species-tree branch segment (each node owns the tube to its parent,
the root stem included), plus one synthetic root interval exactly when
the requested total depth exceeds the tree height. -/
theorem C8_thm (t : TreeNode) (positions : Str → Option SpeciesPosition)
    (maxDepth rootY tipY yScale : ℚ)
    (hpos : ∀ n ∈ getLeaves t, positions n ≠ none) (hscale : 0 < yScale) :
    (renderPopulations t positions maxDepth rootY tipY yScale).length
      = branchCount t + (if getDepth t < maxDepth then 1 else 0) := by
  rw [renderPopulations]
  simp only [List.length_append]
  rw [drawTubes_length positions yScale tipY t _ _ hpos]
  congr 1
  have hiff : (rootY - (maxDepth - getDepth t) * yScale < rootY) ↔ getDepth t < maxDepth := by
    constructor
    · intro h
      nlinarith
    · intro h
      nlinarith
  by_cases hc : getDepth t < maxDepth
  · rw [if_pos (hiff.mpr hc), if_pos hc]; rfl
  · rw [if_neg (fun hcc => hc (hiff.mp hcc)), if_neg hc]; rfl

/-- Witness for C8 at a two-leaf species tree with requested depth 2
above the height 1. -/
theorem C8_witness :
    (renderPopulations (.node [] 0 none [.node ['A'] 1 none [], .node ['B'] 1 none []])
        (fun _ => some ⟨100, 40⟩) 2 550 50 250).length
      = branchCount (.node [] 0 none [.node ['A'] 1 none [], .node ['B'] 1 none []])
        + (if getDepth (.node [] 0 none [.node ['A'] 1 none [], .node ['B'] 1 none []]) < 2
           then 1 else 0) :=
  C8_thm _ (fun _ => some ⟨100, 40⟩) 2 550 50 250 (fun n _ => by simp) (by norm_num)


theorem c6_pops :
    renderPopulations (.node [] 0 none [.node ['A'] 1 none [], .node ['B'] 1 none []])
      (fun n => if n = ['A'] then some ⟨160, 40⟩ else if n = ['B'] then some ⟨440, 40⟩ else none)
      1 550 50 500
    = [⟨.named ['A'], 140, 180, 0, 1, {['A']}⟩,
       ⟨.named ['B'], 420, 460, 0, 1, {['B']}⟩,
       ⟨.anc 140 460, 140, 460, 1, 1, {['A'], ['B']}⟩] := by
  have hBA : ((['B'] : Str) = ['A']) = False := by simp
  norm_num [renderPopulations, drawSpeciesTubes, drawTubesKids, minListQ, maxListQ,
    getDepth, kidsDepths, getLeaves, kidsLeaves, TubeResult.leftX, TubeResult.rightX,
    hBA, min_def, max_def, show ({['A']} ∪ {['B']} : Finset Str) = {['A'], ['B']} from by decide]

theorem c6_viol :
    (collectViolations []
      [⟨.named ['A'], 140, 180, 0, 1, {['A']}⟩,
       ⟨.named ['B'], 420, 460, 0, 1, {['B']}⟩,
       ⟨.anc 140 460, 140, 460, 1, 1, {['A'], ['B']}⟩]
      (.node [] 0
        [.node ( "A^a1".toList) (1/2) [] (some ['A']) (some ( "a1".toList)),
         .node ( "B^b1".toList) (1/2) [] (some ['B']) (some ( "b1".toList))] none none)).1
    = [({['A'], ['B']}, 1/2)] := by
  have hun : ({['A']} ∪ {['B']} : Finset Str) = {['A'], ['B']} := by decide
  have hs1 : ¬ ({['A'], ['B']} : Finset Str) ⊆ {['A']} := by decide
  have hs2 : ¬ ({['A'], ['B']} : Finset Str) ⊆ {['B']} := by decide
  norm_num [collectViolations, geneKidsViolations, getGeneNodeAge,
    GeneTreeNode.branchLength, findPopulationForSpecies, findPopGo, popQualifies,
    hun, hs1, hs2]

theorem c6_rootage :
    getGeneNodeAge (.node [] 0
        [.node ( "A^a1".toList) (1/2) [] (some ['A']) (some ( "a1".toList)),
         .node ( "B^b1".toList) (1/2) [] (some ['B']) (some ( "b1".toList))] none none)
      = 1/2 := by
  norm_num [getGeneNodeAge, GeneTreeNode.branchLength]


/-- C9: for every index outside `[0, count())`, `getTree` returns the
empty string (the source returns '' before any read). -/
theorem C9_thm (bytes : List Nat) (skipFirst : Bool) (i : ℤ)
    (h : i < 0 ∨ (getTreeCount bytes skipFirst : ℤ) ≤ i) :
    getTree bytes skipFirst i = [] := by
  unfold getTree
  rw [if_pos]
  exact h

/-- Witness for C9: index 5 of a one-line file. -/
theorem C9_witness : (5 < 0 ∨ (getTreeCount [97, 10] false : ℤ) ≤ 5) ∧
    getTree [97, 10] false 5 = [] := by
  refine ⟨Or.inr (by decide), C9_thm [97, 10] false 5 (Or.inr (by decide))⟩


/-- The species parser on the worked example `(A:1,B:1):0;`. -/
theorem c6_species_parse :
    parseNewickF 50 ( "(A:1,B:1):0;".toList)
      = some (some (.node [] 0 none
          [.node ['A'] 1 none [], .node ['B'] 1 none []])) := by
  rw [show parseNewickF 50 ( "(A:1,B:1):0;".toList)
      = some (some (.node [] ((jsParseFloat ['0']).getD 0) none
          [.node ['A'] ((jsParseFloat ['1']).getD 0) none [],
           .node ['B'] ((jsParseFloat ['1']).getD 0) none []])) from rfl]
  rw [show (['0'] : Str) = ( "0".toList) from rfl,
    show (['1'] : Str) = ( "1".toList) from rfl, jpfZero, jpfOne]
  rfl

/-- The gene parser on the worked example with its TH/TL annotation. -/
theorem c6_gene_parse :
    parseGeneTreeM none ( "(A^a1:0.5,B^b1:0.5):0;[TH=0.5,TL=1.0]".toList)
      = some ⟨.node [] 0
          [.node ( "A^a1".toList) (1/2) [] (some ['A']) (some ( "a1".toList)),
           .node ( "B^b1".toList) (1/2) [] (some ['B']) (some ( "b1".toList))]
          none none, 1/2, 1⟩ := by
  rw [show parseGeneTreeM none ( "(A^a1:0.5,B^b1:0.5):0;[TH=0.5,TL=1.0]".toList)
      = some ⟨.node [] ((jsParseFloat ['0']).getD 0)
          [.node ( "A^a1".toList) ((jsParseFloat ( "0.5".toList)).getD 0) []
            (some ['A']) (some ( "a1".toList)),
           .node ( "B^b1".toList) ((jsParseFloat ( "0.5".toList)).getD 0) []
            (some ['B']) (some ( "b1".toList))]
          none none,
          (jsParseFloat ( "0.5".toList)).getD 0,
          (jsParseFloat ( "1.0".toList)).getD 0⟩ from rfl]
  rw [show (['0'] : Str) = ( "0".toList) from rfl, jpfZero, jpfHalf, jpfOneDot]
  rfl

/-- The gene parser on the C5 counterexample input (no annotation, so
`TH` and `TL` default to 0). -/
theorem c5_gene_parse :
    parseGeneTreeM none ( "(A^a1:1,B^b1:1):0.5".toList)
      = some ⟨.node [] (1/2)
          [.node ( "A^a1".toList) 1 [] (some ['A']) (some ( "a1".toList)),
           .node ( "B^b1".toList) 1 [] (some ['B']) (some ( "b1".toList))]
          none none, 0, 0⟩ := by
  rw [show parseGeneTreeM none ( "(A^a1:1,B^b1:1):0.5".toList)
      = some ⟨.node [] ((jsParseFloat ( "0.5".toList)).getD 0)
          [.node ( "A^a1".toList) ((jsParseFloat ['1']).getD 0) []
            (some ['A']) (some ( "a1".toList)),
           .node ( "B^b1".toList) ((jsParseFloat ['1']).getD 0) []
            (some ['B']) (some ( "b1".toList))]
          none none, 0, 0⟩ from rfl]
  rw [show (['1'] : Str) = ( "1".toList) from rfl, jpfHalf, jpfOne]
  rfl

/-- The species parser returns a tree, not null, on the unmatched
parenthesis input `(A:1,B:1`. -/
theorem species_unmatched_parse :
    parseNewickF 20 ( "(A:1,B:1".toList)
      = some (some (.node [] 0 none
          [.node ['A'] 1 none [], .node ['B'] 1 none []])) := by
  rw [show parseNewickF 20 ( "(A:1,B:1".toList)
      = some (some (.node [] 0 none
          [.node ['A'] ((jsParseFloat ['1']).getD 0) none [],
           .node ['B'] ((jsParseFloat ['1']).getD 0) none []])) from rfl]
  rw [show (['1'] : Str) = ( "1".toList) from rfl, jpfOne]
  rfl

/-- The species parser on `A:1` (the C4 witness input). -/
theorem c4_witness_parse :
    parseNewickF 1 ( "A:1".toList) = some (some (.node ['A'] 1 none [])) := by
  rw [show parseNewickF 1 ( "A:1".toList)
      = some (some (.node ['A'] ((jsParseFloat ['1']).getD 0) none [])) from rfl]
  rw [show (['1'] : Str) = ( "1".toList) from rfl, jpfOne]
  rfl

/-- The child loop never advances past a stray semicolon: at every
fuel it runs out instead of terminating. -/
theorem childLoop_semi_none :
    ∀ fuel acc, childrenF fuel (';' :: ( "b)".toList)) acc = none := by
  intro fuel
  induction fuel using Nat.strong_induction_on with
  | _ fuel ih =>
    match fuel with
    | 0 => intro acc; rfl
    | 1 => intro acc; rfl
    | g + 2 =>
      intro acc
      rw [childrenF_succ_of (g + 1) _ acc (.node [] 0 none [])
        (';' :: ( "b)".toList)) (by
          rw [parseNodeF_succ_noparen g _ (by
            intro r hx
            rw [show skipWs (';' :: ( "b)".toList)) = ';' :: ( "b)".toList)
              from rfl] at hx
            exact absurd (congrArg List.head? hx)
              (by simp only [List.head?_cons]; decide))]
          rfl)]
      rw [skipWs_cons_of_neg (by decide)]
      exact ih (g + 1) (by omega) (acc ++ [.node [] 0 none []])

/-- The child loop on the contents `a;b)` reaches the stray semicolon
and then loops forever. -/
theorem childLoop_a_semi_none :
    ∀ fuel acc, childrenF fuel ( "a;b)".toList) acc = none := by
  intro fuel acc
  match fuel with
  | 0 => rfl
  | 1 => rfl
  | g + 2 =>
    rw [childrenF_succ_of (g + 1) _ acc (.node ['a'] 0 none [])
      (';' :: ( "b)".toList)) (by
        rw [parseNodeF_succ_noparen g _ (by
          intro r hx
          rw [show skipWs ( "a;b)".toList) = 'a' :: ( ";b)".toList)
            from rfl] at hx
          exact absurd (congrArg List.head? hx)
            (by simp only [List.head?_cons]; decide))]
        rfl)]
    rw [skipWs_cons_of_neg (by decide)]
    exact childLoop_semi_none (g + 1) (acc ++ [.node ['a'] 0 none []])

/-- The species parse loop diverges (models as fuel exhaustion at every
fuel) on a stray semicolon inside parentheses. -/
theorem species_semi_divergence :
    ∀ fuel, parseNewickF fuel ( "(a;b)".toList) = none := by
  intro fuel
  cases fuel with
  | zero => rfl
  | succ g =>
    rw [show parseNewickF (g + 1) ( "(a;b)".toList)
        = (match parseNodeF (g + 1) ( "(a;b)".toList) with
           | none => none
           | some (t, _) => some (some t)) from rfl]
    rw [parseNodeF_succ_paren g _ ( "a;b)".toList)
      (show skipWs ( "(a;b)".toList) = '(' :: ( "a;b)".toList) from rfl)]
    rw [childLoop_a_semi_none g []]


/-- C2 (amended): for a source of `L` newline-terminated lines, the
index gives `count() = L`; `getTree i` returns line `i` with
surrounding whitespace trimmed (the source trims each slice, so the
text is returned exactly only when trimming leaves it unchanged); with
`skipFirstLine`, `count() = L - 1` and `getTree 0` returns the trimmed
second line. -/
theorem C2_thm (lines : List (List Nat)) (h : ∀ l ∈ lines, NlFree l) :
    getTreeCount (flattenLines lines) false = lines.length ∧
    (∀ i : ℕ, i < lines.length →
      getTree (flattenLines lines) false (i : ℤ) = trimBytes (lines.getD i [])) ∧
    (∀ i : ℕ, i < lines.length → trimBytes (lines.getD i []) = lines.getD i [] →
      getTree (flattenLines lines) false (i : ℤ) = lines.getD i []) ∧
    getTreeCount (flattenLines lines) true = lines.length - 1 ∧
    (∀ l0 l1 rest, lines = l0 :: l1 :: rest →
      getTree (flattenLines lines) true 0 = trimBytes l1) := by
  refine ⟨getTreeCount_flatten lines h,
    fun i hi => getTree_flatten_eq lines h i hi,
    fun i hi ht => by rw [getTree_flatten_eq lines h i hi, ht],
    getTreeCount_flatten_skip lines h,
    fun l0 l1 rest he => by
      subst he
      exact getTree_flatten_skip_zero l0 l1 rest h⟩

/-- C2 counterexample: a line with a trailing space is not returned
exactly; `getTree` trims it. -/
theorem C2_cex :
    getTree (flattenLines [[97, 32]]) false 0 = [97] ∧ [97] ≠ [97, 32] := by
  constructor
  · decide
  · decide

/-- Witness for C2 on the two lines `a ` and `b`. -/
theorem C2_witness :
    (∀ l ∈ [[97, 32], [98]], NlFree l) ∧
    getTreeCount (flattenLines [[97, 32], [98]]) false = 2 ∧
    getTree (flattenLines [[97, 32], [98]]) false ((0 : ℕ) : ℤ)
      = trimBytes ([[97, 32], [98]].getD 0 []) ∧
    getTreeCount (flattenLines [[97, 32], [98]]) true = 1 ∧
    getTree (flattenLines [[97, 32], [98]]) true 0 = trimBytes [98] := by
  have h : ∀ l ∈ [[97, 32], [98]], NlFree l := by
    simp only [NlFree]
    decide
  have hc := C2_thm [[97, 32], [98]] h
  exact ⟨h, hc.1, hc.2.1 0 (by decide), hc.2.2.2.1,
    hc.2.2.2.2 [97, 32] [98] [] rfl⟩

/-- C3 (amended): the species parser returns null on empty or
bare-semicolon input, and the gene parser returns null on empty input
and on an unmatched opening parenthesis; but contrary to the claim the
species parser returns a tree (not null) on an unmatched opening
parenthesis, and its child loop diverges — fuel exhaustion at every
fuel — on a stray semicolon inside parentheses, the model of the
source's infinite loop. -/
theorem C3_thm :
    (∀ fuel, parseNewickF fuel [] = some none) ∧
    (∀ fuel, parseNewickF fuel [';'] = some none) ∧
    parseGeneTreeM none [] = none ∧
    parseGeneTreeM none ( "(A^a1:0.5".toList) = none ∧
    (∃ t, parseNewickF 20 ( "(A:1,B:1".toList) = some (some t)) ∧
    (∀ fuel, parseNewickF fuel ( "(a;b)".toList) = none) := by
  refine ⟨fun fuel => rfl, fun fuel => rfl, rfl, rfl,
    ⟨_, species_unmatched_parse⟩, species_semi_divergence⟩

/-- C3 counterexample: on the malformed input `(A:1,B:1` (unmatched
grouping) the species parser returns a tree, not null. -/
theorem C3_cex :
    parseNewickF 20 ( "(A:1,B:1".toList)
      = some (some (.node [] 0 none
          [.node ['A'] 1 none [], .node ['B'] 1 none []]))
    ∧ parseNewickF 20 ( "(A:1,B:1".toList) ≠ some none := by
  refine ⟨species_unmatched_parse, ?_⟩
  rw [species_unmatched_parse]
  simp

/-- C4: parsing valid species-tree text, re-serializing the parsed
tree with `toNewick`, and parsing the print again returns exactly the
same tree: same topology, same branch lengths, same theta values.
`ValidTree` confines branch lengths and thetas to nonnegative values
exact at the six printed decimals, which is the claim's "up to
floating rounding" in the exact-rational model. -/
theorem C4_thm (input : Str) (t : TreeNode) (fuel fuel2 : ℕ)
    (hparse : parseNewickF fuel input = some (some t)) (hv : ValidTree t)
    (hf : fuelNode t ≤ fuel2) :
    parseNewickF fuel2 (toNewick t) = some (some t) :=
  C4_core t fuel2 hv hf

/-- Witness for C4 on the input `A:1`. -/
theorem C4_witness :
    parseNewickF 1 ( "A:1".toList) = some (some (.node ['A'] 1 none [])) ∧
    ValidTree (.node ['A'] 1 none []) ∧
    fuelNode (.node ['A'] 1 none []) ≤ 2 ∧
    parseNewickF 2 (toNewick (.node ['A'] 1 none []))
      = some (some (.node ['A'] 1 none [])) := by
  have hv : ValidTree (.node ['A'] 1 none []) := by
    rw [ValidTree, ValidName, ExactSix]
    refine ⟨⟨by decide, by decide⟩, fun _ => by decide, by decide, by decide,
      by simp, trivial⟩
  exact ⟨c4_witness_parse, hv, by decide,
    C4_thm ( "A:1".toList) _ 1 2 c4_witness_parse hv (by decide)⟩

/-- C5 (amended): under the sibling age-consistency assumption, every
node's age satisfies `age(child) = age(parent) - child.branchLength`
(leaves having age 0 by definition), and the tree depth equals
`age(root) + root.branchLength` — not `age(root)` as claimed, the
root's own branch length being included by `getGeneTreeDepth`. -/
theorem C5_thm (g : GeneTreeNode) (h : SiblingConsistent g) :
    (∀ p ∈ geneAllNodes g, ∀ c, c ∈ p.children →
      getGeneNodeAge c = getGeneNodeAge p - c.branchLength) ∧
    (∀ p ∈ geneAllNodes g, p.children = [] → getGeneNodeAge p = 0) ∧
    getGeneTreeDepth g = getGeneNodeAge g + g.branchLength := by
  refine ⟨age_child_eq g h, ?_, depth_eq_age_add_bl g h⟩
  intro p hp hleaf
  cases p with
  | node n bl cs sp iv =>
    rw [GeneTreeNode.children] at hleaf
    subst hleaf
    rfl

/-- C5 counterexample: for the parsed gene tree of
`(A^a1:1,B^b1:1):0.5` (sibling-consistent), the tree depth is `3/2`
while the root age is `1`, so depth differs from `age(root)` by the
root's branch length. -/
theorem C5_cex :
    ∃ gt : GeneTree,
      parseGeneTreeM none ( "(A^a1:1,B^b1:1):0.5".toList) = some gt ∧
      SiblingConsistent gt.root ∧
      getGeneNodeAge gt.root = 1 ∧
      getGeneTreeDepth gt.root = 3/2 ∧
      getGeneTreeDepth gt.root ≠ getGeneNodeAge gt.root := by
  refine ⟨_, c5_gene_parse, ?_, ?_, ?_, ?_⟩
  · intro p hp c hc d hd
    simp only [geneAllNodes, geneKidsAllNodes, List.mem_cons, List.mem_append,
      List.mem_singleton, List.not_mem_nil, or_false] at hp
    rcases hp with rfl | rfl | rfl
    · simp only [GeneTreeNode.children, List.mem_cons,
        List.not_mem_nil, or_false] at hc hd
      rcases hc with rfl | rfl <;> rcases hd with rfl | rfl <;> rfl
    · simp [GeneTreeNode.children] at hc
    · simp [GeneTreeNode.children] at hc
  · norm_num [getGeneNodeAge, GeneTreeNode.branchLength]
  · norm_num [getGeneTreeDepth, geneKidsDepths, maxListQ,
      GeneTreeNode.branchLength, max_def]
  · norm_num [getGeneTreeDepth, geneKidsDepths, maxListQ, getGeneNodeAge,
      GeneTreeNode.branchLength, max_def]

/-- Witness for C5 at a single-leaf gene tree. -/
theorem C5_witness :
    SiblingConsistent (.node ['A'] 0 [] none none) ∧
    ((∀ p ∈ geneAllNodes (.node ['A'] 0 [] none none), ∀ c, c ∈ p.children →
        getGeneNodeAge c = getGeneNodeAge p - c.branchLength) ∧
     (∀ p ∈ geneAllNodes (.node ['A'] 0 [] none none), p.children = [] →
        getGeneNodeAge p = 0) ∧
     getGeneTreeDepth (.node ['A'] 0 [] none none)
       = getGeneNodeAge (.node ['A'] 0 [] none none)
         + GeneTreeNode.branchLength (.node ['A'] 0 [] none none)) := by
  have hs : SiblingConsistent (.node ['A'] 0 [] none none) := by
    intro p hp c hc d hd
    simp only [geneAllNodes, geneKidsAllNodes, List.mem_singleton] at hp
    subst hp
    simp [GeneTreeNode.children] at hc
  exact ⟨hs, C5_thm _ hs⟩

/-- C6 (amended): embedding the gene tree
`(A^a1:0.5,B^b1:0.5):0;[TH=0.5,TL=1.0]` into the species tree parsed
from `(A:1,B:1):0;` yields a root coalescence age of `0.5` as claimed,
but exactly one containment violation — not zero: the gene root
coalesces at time `0.5` for species set `{A, B}`, below the ancestral
population, which only spans the degenerate interval `[1, 1]`. -/
theorem C6_thm :
    ∃ (sp : TreeNode) (gt : GeneTree),
      parseNewickF 50 ( "(A:1,B:1):0;".toList) = some (some sp) ∧
      parseGeneTreeM none ( "(A^a1:0.5,B^b1:0.5):0;[TH=0.5,TL=1.0]".toList)
        = some gt ∧
      (collectViolations []
        (renderPopulations sp
          (fun n => if n = ['A'] then some ⟨160, 40⟩
                    else if n = ['B'] then some ⟨440, 40⟩ else none)
          (max (if getDepth sp = 0 then 1/100 else getDepth sp)
            (getGeneTreeDepth gt.root))
          550 50 500)
        gt.root).1 = [({['A'], ['B']}, 1/2)] ∧
      getGeneNodeAge gt.root = 1/2 := by
  refine ⟨_, _, c6_species_parse, c6_gene_parse, ?_, c6_rootage⟩
  have hd : getDepth (.node [] 0 none
      [.node ['A'] 1 none [], .node ['B'] 1 none []]) = 1 := by
    norm_num [getDepth, kidsDepths, maxListQ, max_def]
  have hg : getGeneTreeDepth (GeneTree.root ⟨.node [] 0
      [.node ( "A^a1".toList) (1/2) [] (some ['A']) (some ( "a1".toList)),
       .node ( "B^b1".toList) (1/2) [] (some ['B']) (some ( "b1".toList))]
      none none, 1/2, 1⟩) = 1/2 := by
    norm_num [getGeneTreeDepth, geneKidsDepths, maxListQ,
      GeneTreeNode.branchLength, max_def]
  rw [show GeneTree.root ⟨.node [] 0
      [.node ( "A^a1".toList) (1/2) [] (some ['A']) (some ( "a1".toList)),
       .node ( "B^b1".toList) (1/2) [] (some ['B']) (some ( "b1".toList))]
      none none, 1/2, 1⟩ = .node [] 0
      [.node ( "A^a1".toList) (1/2) [] (some ['A']) (some ( "a1".toList)),
       .node ( "B^b1".toList) (1/2) [] (some ['B']) (some ( "b1".toList))]
      none none from rfl] at hg ⊢
  rw [hd, hg]
  rw [show (max (if (1 : ℚ) = 0 then 1/100 else 1) (1/2 : ℚ)) = 1 from by
    norm_num [max_def]]
  rw [c6_pops]
  exact c6_viol

/-- C6 counterexample: the embedding of the worked example produces a
nonempty violation list, not zero violations. -/
theorem C6_cex :
    ∃ (sp : TreeNode) (gt : GeneTree),
      parseNewickF 50 ( "(A:1,B:1):0;".toList) = some (some sp) ∧
      parseGeneTreeM none ( "(A^a1:0.5,B^b1:0.5):0;[TH=0.5,TL=1.0]".toList)
        = some gt ∧
      (collectViolations []
        (renderPopulations sp
          (fun n => if n = ['A'] then some ⟨160, 40⟩
                    else if n = ['B'] then some ⟨440, 40⟩ else none)
          (max (if getDepth sp = 0 then 1/100 else getDepth sp)
            (getGeneTreeDepth gt.root))
          550 50 500)
        gt.root).1 ≠ [] := by
  refine ⟨_, _, c6_species_parse, c6_gene_parse, ?_⟩
  have hd : getDepth (.node [] 0 none
      [.node ['A'] 1 none [], .node ['B'] 1 none []]) = 1 := by
    norm_num [getDepth, kidsDepths, maxListQ, max_def]
  have hg : getGeneTreeDepth (.node [] 0
      [.node ( "A^a1".toList) (1/2) [] (some ['A']) (some ( "a1".toList)),
       .node ( "B^b1".toList) (1/2) [] (some ['B']) (some ( "b1".toList))]
      none none) = 1/2 := by
    norm_num [getGeneTreeDepth, geneKidsDepths, maxListQ,
      GeneTreeNode.branchLength, max_def]
  rw [show GeneTree.root ⟨.node [] 0
      [.node ( "A^a1".toList) (1/2) [] (some ['A']) (some ( "a1".toList)),
       .node ( "B^b1".toList) (1/2) [] (some ['B']) (some ( "b1".toList))]
      none none, 1/2, 1⟩ = .node [] 0
      [.node ( "A^a1".toList) (1/2) [] (some ['A']) (some ( "a1".toList)),
       .node ( "B^b1".toList) (1/2) [] (some ['B']) (some ( "b1".toList))]
      none none from rfl]
  rw [hd, hg]
  rw [show (max (if (1 : ℚ) = 0 then 1/100 else 1) (1/2 : ℚ)) = 1 from by
    norm_num [max_def]]
  rw [c6_pops, c6_viol]
  simp


theorem findIdx_eq_length_of_none {α} (p : α → Bool) (l : List α)
    (h : ∀ a ∈ l, p a = false) : l.findIdx p = l.length := by
  induction l with
  | nil => rfl
  | cons a l ih =>
    rw [List.findIdx_cons, h a (by simp)]
    simp [ih (fun b hb => h b (by simp [hb]))]

theorem findIdx_append_stop {α} (p : α → Bool) (A : List α) (b : α) (C : List α)
    (hA : ∀ a ∈ A, p a = false) (hb : p b = true) :
    (A ++ b :: C).findIdx p = A.length := by
  induction A with
  | nil => simp [List.findIdx_cons, hb]
  | cons a A ih =>
    rw [List.cons_append, List.findIdx_cons, hA a (by simp)]
    simp [ih (fun x hx => hA x (by simp [hx]))]

/-- C7: for a gene-tree leaf whose name is two caret-joined segments,
the parser takes the second segment as the species exactly when it is
short (at most two characters), nonempty, and all-uppercase letters;
otherwise the first segment is the species and the second the
individual. -/
theorem C7_thm (p1 p2 : Str) (h1 : '^' ∉ p1)
    (hcolon : ':' ∉ p1 ++ '^' :: p2)
    (htrim : trimChars (p1 ++ '^' :: p2) = p1 ++ '^' :: p2) :
    parseLeafNodeG none (p1 ++ '^' :: p2)
      = (if tagIsSpeciesSecond p2
         then .node (p1 ++ '^' :: p2) 0 [] (some p2) (some p1)
         else .node (p1 ++ '^' :: p2) 0 [] (some p1) (some p2)) ∧
    (tagIsSpeciesSecond p2 = true ↔
      p2.length ≤ 2 ∧ p2.map Char.toUpper = p2 ∧ p2 ≠ [] ∧
        ∀ c ∈ p2, isUpperAlpha c = true) := by
  constructor
  · have hfc : (p1 ++ '^' :: p2).findIdx (fun c => c == ':')
        = (p1 ++ '^' :: p2).length := by
      apply findIdx_eq_length_of_none
      intro a ha
      cases hx : a == ':' with
      | false => rfl
      | true =>
        rw [show a = ':' from beq_iff_eq.mp hx] at ha
        exact absurd ha hcolon
    have hfcar : (p1 ++ '^' :: p2).findIdx (fun c => c == '^') = p1.length := by
      apply findIdx_append_stop
      · intro a ha
        cases hx : a == '^' with
        | false => rfl
        | true =>
          rw [show a = '^' from beq_iff_eq.mp hx] at ha
          exact absurd ha h1
      · decide
    have htake : (p1 ++ '^' :: p2).take p1.length = p1 := List.take_left _ _
    have hdrop : (p1 ++ '^' :: p2).drop (p1.length + 1) = p2 := by
      rw [show p1 ++ '^' :: p2 = (p1 ++ ['^']) ++ p2 from by simp,
        show p1.length + 1 = (p1 ++ ['^']).length from by simp,
        List.drop_left]
    have hlt : p1.length < (p1 ++ '^' :: p2).length := by
      simp
    simp only [parseLeafNodeG, hfc, hfcar, lt_irrefl, if_false, htrim,
      if_pos hlt, htake, hdrop]
  · rw [tagIsSpeciesSecond]
    simp only [Bool.and_eq_true, decide_eq_true_eq, List.all_eq_true,
      Bool.not_eq_true']
    constructor
    · rintro ⟨⟨hl, hu⟩, hne, hall⟩
      refine ⟨hl, hu, ?_, hall⟩
      intro he
      rw [he] at hne
      simp at hne
    · rintro ⟨hl, hu, hne, hall⟩
      refine ⟨⟨hl, hu⟩, ?_, hall⟩
      cases hp : p2 with
      | nil => exact absurd hp hne
      | cons c r => rfl

/-- Witness for C7 on the leaf name `a1^A`. -/
theorem C7_witness :
    parseLeafNodeG none (( "a1".toList) ++ '^' :: ['A'])
      = (if tagIsSpeciesSecond ['A']
         then .node (( "a1".toList) ++ '^' :: ['A']) 0 [] (some ['A'])
           (some ( "a1".toList))
         else .node (( "a1".toList) ++ '^' :: ['A']) 0 [] (some ( "a1".toList))
           (some ['A'])) ∧
    (tagIsSpeciesSecond ['A'] = true ↔
      (['A'] : Str).length ≤ 2 ∧ (['A'] : Str).map Char.toUpper = ['A'] ∧
        (['A'] : Str) ≠ [] ∧ ∀ c ∈ (['A'] : Str), isUpperAlpha c = true) :=
  C7_thm ( "a1".toList) ['A'] (by decide) (by decide) (by decide)

theorem find?_append_or {α} (p : α → Bool) (A B : List α) :
    (A ++ B).find? p
      = match A.find? p with
        | some x => some x
        | none => B.find? p := by
  induction A with
  | nil => rfl
  | cons a A ih =>
    rw [List.cons_append]
    by_cases hp : p a = true
    · rw [List.find?_cons_of_pos _ hp, List.find?_cons_of_pos _ hp]
    · rw [List.find?_cons_of_neg _ (by simp [hp]),
        List.find?_cons_of_neg _ (by simp [hp]), ih]

theorem find?_map_overwrite (rest : ImapM) (a b k : Str) (hk : ¬ a = k) :
    (rest.map (fun p => if p.1 = a then (a, b) else p)).find?
      (fun p => p.1 = k) = rest.find? (fun p => p.1 = k) := by
  induction rest with
  | nil => rfl
  | cons q r ih =>
    rw [List.map_cons]
    by_cases hqa : q.1 = a
    · rw [if_pos hqa]
      rw [List.find?_cons_of_neg _ (by simp [hk]),
        List.find?_cons_of_neg _ (by simp [hqa, hk])]
      exact ih
    · rw [if_neg hqa]
      by_cases hqk : q.1 = k
      · rw [List.find?_cons_of_pos _ (by simp [hqk]),
          List.find?_cons_of_pos _ (by simp [hqk])]
      · rw [List.find?_cons_of_neg _ (by simp [hqk]),
          List.find?_cons_of_neg _ (by simp [hqk])]
        exact ih

theorem find?_map_overwrite_self (m : ImapM) (a b : Str)
    (h : m.any (fun p => p.1 = a) = true) :
    (m.map (fun p => if p.1 = a then (a, b) else p)).find? (fun p => p.1 = a)
      = some (a, b) := by
  induction m with
  | nil => cases h
  | cons q r ih =>
    rw [List.map_cons]
    by_cases hqa : q.1 = a
    · rw [if_pos hqa, List.find?_cons_of_pos _ (by simp)]
    · rw [if_neg hqa, List.find?_cons_of_neg _ (by simp [hqa])]
      apply ih
      simp only [List.any_cons, Bool.or_eq_true, decide_eq_true_eq] at h
      rcases h with h | h
      · exact absurd h hqa
      · exact h

/-- `Map.set` then `Map.get`: the set key reads back the new value,
any other key is unchanged. -/
theorem mapGet_mapSet (m : ImapM) (a b k : Str) :
    mapGet (mapSet m a b) k = if a = k then some b else mapGet m k := by
  rw [mapSet]
  by_cases hany : m.any (fun p => p.1 = a) = true
  · rw [if_pos hany, mapGet]
    by_cases hak : a = k
    · subst hak
      rw [find?_map_overwrite_self m a b hany, if_pos rfl]
      rfl
    · rw [find?_map_overwrite m a b k hak, if_neg hak]
      rfl
  · rw [if_neg hany, mapGet, find?_append_or]
    have hnone : m.find? (fun p => p.1 = a) = none := by
      rw [List.find?_eq_none]
      intro x hx hpx
      apply hany
      rw [List.any_eq_true]
      exact ⟨x, hx, hpx⟩
    by_cases hak : a = k
    · subst hak
      rw [hnone]
      rw [List.find?_cons_of_pos _ (by simp), if_pos rfl]
      rfl
    · cases hf : m.find? (fun p => p.1 = k) with
      | some p => rw [if_neg hak, mapGet, hf]
      | none =>
        rw [if_neg hak, mapGet, hf]
        rw [List.find?_cons_of_neg _ (by simp [hak])]
        rfl

/-- The per-line step of `parseImap` (definitionally the fold body of
the source loop). -/
def imapStep (m : ImapM) (line : Str) : ImapM :=
  let t := trimChars line
  if t.isEmpty then m
  else
    match firstTwoTokens t with
    | some (a, b) => mapSet m a b
    | none => m

/-- The (individual, species) pair a line contributes, if any. -/
def imapEntry (line : Str) : Option (Str × Str) :=
  let t := trimChars line
  if t.isEmpty then none else firstTwoTokens t

theorem parseImapM_eq (content : Str) :
    parseImapM content = (splitLinesNl (trimChars content)).foldl imapStep [] :=
  rfl

theorem imapLastRule_eq (content : Str) (ind : Str) :
    imapLastRule content ind
      = (((splitLinesNl (trimChars content)).filterMap imapEntry).reverse.find?
          (fun p => p.1 = ind)).map (fun p => p.2) := rfl

theorem imap_fold_get (lines : List Str) (m : ImapM) (k : Str) :
    mapGet (lines.foldl imapStep m) k
      = match ((lines.filterMap imapEntry).reverse.find? (fun p => p.1 = k)) with
        | some p => some p.2
        | none => mapGet m k := by
  induction lines generalizing m with
  | nil => rfl
  | cons l ls ih =>
    rw [List.foldl_cons, List.filterMap_cons]
    cases hE : imapEntry l with
    | none =>
      have hstep : imapStep m l = m := by
        rw [imapStep]
        rw [imapEntry] at hE
        by_cases he : (trimChars l).isEmpty = true
        · rw [if_pos he]
        · rw [if_neg he]
          rw [if_neg he] at hE
          rw [hE]
      rw [hstep]
      exact ih m
    | some ab =>
      obtain ⟨a, b⟩ := ab
      have hstep : imapStep m l = mapSet m a b := by
        rw [imapStep]
        rw [imapEntry] at hE
        by_cases he : (trimChars l).isEmpty = true
        · rw [if_pos he] at hE
          cases hE
        · rw [if_neg he]
          rw [if_neg he] at hE
          rw [hE]
      rw [hstep, ih (mapSet m a b), List.reverse_cons, find?_append_or]
      cases hf : ((ls.filterMap imapEntry).reverse.find? (fun p => p.1 = k)) with
      | some p => rfl
      | none =>
        rw [mapGet_mapSet]
        by_cases hak : a = k
        · rw [if_pos hak]
          rw [List.find?_cons_of_pos _ (by simp [hak])]
        · rw [if_neg hak]
          rw [List.find?_cons_of_neg _ (by simp [hak])]
          rfl

/-- C10: per Imap line, only the first two whitespace-delimited tokens
matter (anything after the second token is ignored), and when the same
individual appears on several lines the species of the last such line
wins: reading the built map agrees with the last-wins reference
reading `imapLastRule`. -/
theorem C10_thm :
    (∀ t1 t2 t3 : Str, t1 ≠ [] → t2 ≠ [] →
      (∀ c ∈ t1, isWsChar c = false) → (∀ c ∈ t2, isWsChar c = false) →
      firstTwoTokens (t1 ++ ' ' :: (t2 ++ ' ' :: t3)) = some (t1, t2) ∧
      firstTwoTokens (t1 ++ ' ' :: t2) = some (t1, t2)) ∧
    (∀ content ind, mapGet (parseImapM content) ind = imapLastRule content ind) := by
  constructor
  · intro t1 t2 t3 h1 h2 hw1 hw2
    obtain ⟨c1, r1, rfl⟩ : ∃ c1 r1, t1 = c1 :: r1 := by
      cases t1 with
      | nil => exact absurd rfl h1
      | cons c r => exact ⟨c, r, rfl⟩
    obtain ⟨c2, r2, rfl⟩ : ∃ c2 r2, t2 = c2 :: r2 := by
      cases t2 with
      | nil => exact absurd rfl h2
      | cons c r => exact ⟨c, r, rfl⟩
    have hsk1 : ∀ X : Str, skipWs ((c1 :: r1) ++ X) = (c1 :: r1) ++ X := by
      intro X
      rw [List.cons_append]
      exact skipWs_cons_of_neg (hw1 c1 (by simp))
    have ht1 : ∀ X : Str,
        ((c1 :: r1) ++ ' ' :: X).takeWhile (fun c => !isWsChar c) = c1 :: r1 :=
      fun X => takeWhile_append_stop
        (fun c hc => by rw [hw1 c hc]; rfl) (by decide)
    have hsk2 : ∀ X : Str, skipWs (' ' :: ((c2 :: r2) ++ X))
        = (c2 :: r2) ++ X := by
      intro X
      rw [skipWs, List.dropWhile_cons, if_pos (by decide), List.cons_append]
      exact dropWhile_cons_of_neg (hw2 c2 (by simp))
    have hsk2b : skipWs (' ' :: (c2 :: r2)) = c2 :: r2 := by
      rw [skipWs, List.dropWhile_cons, if_pos (by decide)]
      exact dropWhile_cons_of_neg (hw2 c2 (by simp))
    have ht2a : ((c2 :: r2) ++ ' ' :: t3).takeWhile (fun c => !isWsChar c)
        = c2 :: r2 :=
      takeWhile_append_stop (fun c hc => by rw [hw2 c hc]; rfl) (by decide)
    have ht2b : (c2 :: r2).takeWhile (fun c => !isWsChar c) = c2 :: r2 :=
      takeWhile_eq_self_of_all (fun c hc => by rw [hw2 c hc]; rfl)
    constructor
    · rw [firstTwoTokens]
      rw [show (c1 :: r1) ++ ' ' :: ((c2 :: r2) ++ ' ' :: t3)
          = (c1 :: r1) ++ ' ' :: ((c2 :: r2) ++ ' ' :: t3) from rfl]
      rw [hsk1 (' ' :: ((c2 :: r2) ++ ' ' :: t3))]
      rw [ht1 ((c2 :: r2) ++ ' ' :: t3)]
      rw [List.drop_left]
      rw [hsk2 (' ' :: t3), ht2a]
      rw [if_neg (by simp)]
    · rw [firstTwoTokens]
      rw [hsk1 (' ' :: (c2 :: r2))]
      rw [ht1 (c2 :: r2)]
      rw [List.drop_left]
      rw [hsk2b, ht2b]
      rw [if_neg (by simp)]
  · intro content ind
    rw [parseImapM_eq, imapLastRule_eq, imap_fold_get]
    cases ((splitLinesNl (trimChars content)).filterMap
        imapEntry).reverse.find? (fun p => p.1 = ind) with
    | some p => rfl
    | none => rfl

end Bppt
